import Mathlib

set_option maxRecDepth 10000

/-!
Verification of the matching engine of the jamjoom-match-dashboard
repository (`src/utils/matcher.ts`).

The TypeScript source is shallowly embedded here:

* JavaScript values reaching the matcher are modelled by `JSVal`
  (strings, numbers, and null/undefined/absent), with JS truthiness.
* A spreadsheet row (`Record`) is an association list of field values.
* `normalizeString`, `calculateSimilarity`, `matchDescriptions`,
  `extractTokens`, `calculateTokenOverlap`, and `matchDescriptionsAsync`
  follow the corresponding functions of `matcher.ts` line by line.
  Code that can raise a runtime `TypeError` (calling `.toLowerCase()`
  on a non-string) is modelled in the `Except Unit` monad.
* JavaScript numbers are modelled as exact rationals; `Math.round` is
  `jsRound` (floor of x + 1/2, which matches `Math.round` for the
  non-negative values that occur here).  The one place a `NaN` can
  arise (the progress ratio 0/0) is modelled by the dedicated type
  `JsNum`.
* The `string-similarity` package is an external dependency whose
  source is not part of the repository; its `compareTwoStrings` is
  modelled from the specification (see its doc comment).
-/

instance {ε α : Type} [DecidableEq ε] [DecidableEq α] : DecidableEq (Except ε α) := fun x y =>
  match x, y with
  | .ok a, .ok b => if h : a = b then .isTrue (by rw [h]) else .isFalse (by simp [h])
  | .error a, .error b => if h : a = b then .isTrue (by rw [h]) else .isFalse (by simp [h])
  | .ok _, .error _ => .isFalse (by simp)
  | .error _, .ok _ => .isFalse (by simp)

/-- A JavaScript value as it reaches the matcher: a string, a number
(modelled as an exact rational), or null/undefined/absent. -/
inductive JSVal where
  | vstr : String → JSVal
  | vnum : ℚ → JSVal
  | vnull : JSVal
deriving DecidableEq, Repr

/-- JavaScript truthiness for the modelled values: empty string, 0 and
null/undefined are falsy, everything else is truthy. -/
def JSVal.truthy : JSVal → Bool
  | .vstr s => s ≠ ""
  | .vnum q => q ≠ 0
  | .vnull => false

/-- The JavaScript `a || b` operator. -/
def jsOr (a b : JSVal) : JSVal := if a.truthy then a else b

/-- One spreadsheet row: an association list from field names to values. -/
def RowRecord := List (String × JSVal)

instance : DecidableEq RowRecord := by unfold RowRecord; infer_instance

/-- Field access `row[field]`: the first binding wins, a missing field is
`undefined` (modelled as `vnull`). -/
def getField (r : RowRecord) (field : String) : JSVal :=
  match r.find? (fun p => p.1 = field) with
  | some p => p.2
  | none => .vnull

/-- The expression `row[field] || ''` used by both entry points. -/
def descOf (r : RowRecord) (field : String) : JSVal :=
  jsOr (getField r field) (.vstr "")

/-- Whitespace as matched by the regexes `\s` of `matcher.ts`, restricted
to the whitespace characters that can actually occur in the data model. -/
def isSpaceChar (c : Char) : Bool :=
  c = ' ' ∨ c = '\t' ∨ c = '\n' ∨ c = '\r'

/-- A word character in the sense of the regex `\w`: ASCII alphanumeric
or underscore. -/
def isWordChar (c : Char) : Bool := c.isAlphanum ∨ c = '_'

/-- Characters kept by the final `.replace(/[^\w\s]/g, '')` step. -/
def keepChar (c : Char) : Bool := isWordChar c || isSpaceChar c

/-- `String.prototype.trim`: drop leading and trailing whitespace. -/
def trimChars (l : List Char) : List Char :=
  ((l.dropWhile isSpaceChar).reverse.dropWhile isSpaceChar).reverse

/-- Does a character list start with whitespace? -/
def headIsSpace : List Char → Bool
  | [] => false
  | d :: _ => isSpaceChar d

/-- `.replace(/\s+/g, ' ')`: every maximal run of whitespace becomes one
single space character (the run is dropped up to its last character,
which becomes `' '`). -/
def collapseChars : List Char → List Char
  | [] => []
  | c :: rest =>
    if isSpaceChar c then
      if headIsSpace rest then collapseChars rest else ' ' :: collapseChars rest
    else c :: collapseChars rest

/-- The character pipeline of `normalizeString`:
`.toLowerCase().trim().replace(/\s+/g, ' ').replace(/[^\w\s]/g, '')`. -/
def normChars (l : List Char) : List Char :=
  (collapseChars (trimChars (l.map Char.toLower))).filter keepChar

/-- `normalizeString` on an actual string argument. -/
def normalizeStringPure (s : String) : String := ⟨normChars s.data⟩

/-- `normalizeString` as called at runtime: its argument is an arbitrary
JS value.  A falsy value returns `''`; a truthy non-string reaches
`.toLowerCase()` and raises a `TypeError`, modelled as `Except.error`. -/
def normalizeString (v : JSVal) : Except Unit String :=
  if ¬ v.truthy then .ok ""
  else match v with
    | .vstr s => .ok (normalizeStringPure s)
    | _ => .error ()

/-- `Math.round` for the non-negative numbers of this code base:
round half away from zero, i.e. `⌊x + 1/2⌋`. -/
def jsRound (q : ℚ) : ℤ := ⌊q + 1 / 2⌋

/-- The list of overlapping character bigrams of a string, in order. -/
def bigramList (s : String) : List (Char × Char) := s.data.zip s.data.tail

/-- Multiset-bounded intersection size of two lists: each element of the
first list is matched against (and consumes) at most one occurrence in
the second. -/
def interCount : List (Char × Char) → List (Char × Char) → ℕ
  | [], _ => 0
  | a :: as, bs => if a ∈ bs then interCount as (bs.erase a) + 1 else interCount as bs

/-- Modelled from the spec: `compareTwoStrings` of the external
`string-similarity` package, whose source is not part of this
repository.  Per §4.3 of the specification it returns Dice's
coefficient over the multisets of overlapping character bigrams
(`similarity = 2×|A∩B| / (|A|+|B|)` with multiset-bounded intersection
counts), and a string shorter than 2 characters, having no bigrams,
compares as 1.0 against an exactly equal string and 0.0 otherwise. -/
def compareTwoStrings (a b : String) : ℚ :=
  if a.length < 2 ∨ b.length < 2 then (if a = b then 1 else 0)
  else 2 * (interCount (bigramList a) (bigramList b) : ℚ) /
    ((bigramList a).length + (bigramList b).length : ℕ)

/-- `calculateSimilarity` of `matcher.ts`: normalize both arguments
(raising `TypeError` on truthy non-strings), return 0 if either
normalized form is empty, otherwise the percentage of the bigram
similarity rounded to two decimal places. -/
def calculateSimilarity (desc1 desc2 : JSVal) : Except Unit ℚ := do
  let normalized1 ← normalizeString desc1
  let normalized2 ← normalizeString desc2
  if normalized1 = "" ∨ normalized2 = "" then return 0
  return (jsRound (compareTwoStrings normalized1 normalized2 * 10000) : ℚ) / 100

/-- A matched pair as returned to callers of either entry point. -/
structure MatchResult where
  itemMasterRow : RowRecord
  genConsumableRow : RowRecord
  matchPercentage : ℚ
  itemMasterDescription : JSVal
  genConsumableDescription : JSVal
deriving DecidableEq

/-- Insertion step of the descending-by-score sort that models
`matches.sort((a, b) => b.matchPercentage - a.matchPercentage)`.
The comparator only looks at `matchPercentage`, so any sort that is
non-increasing in that field is a faithful model (the engine makes no
tie-order promise). -/
def insertDesc (r : MatchResult) : List MatchResult → List MatchResult
  | [] => [r]
  | x :: xs =>
    if r.matchPercentage ≤ x.matchPercentage then x :: insertDesc r xs else r :: x :: xs

/-- Sort a match list by descending `matchPercentage`. -/
def sortDesc (l : List MatchResult) : List MatchResult := l.foldr insertDesc []

/-- The Ranker: sort descending by score, truncate to `maxResults`. -/
def rankResults (l : List MatchResult) (maxResults : ℕ) : List MatchResult :=
  (sortDesc l).take maxResults

/-- Inner loop of `matchDescriptions` over the right-hand rows, for one
left row whose description is truthy. -/
def syncScanGens (itemRow : RowRecord) (itemDesc : JSVal) (minThreshold : ℚ) :
    List RowRecord → Except Unit (List MatchResult)
  | [] => .ok []
  | genRow :: rest => do
    let genDesc := descOf genRow "LONG DESCRIPTION"
    if genDesc.truthy then
      let matchPercentage ← calculateSimilarity itemDesc genDesc
      let tail ← syncScanGens itemRow itemDesc minThreshold rest
      if minThreshold ≤ matchPercentage then
        return ⟨itemRow, genRow, matchPercentage, itemDesc, genDesc⟩ :: tail
      else
        return tail
    else
      syncScanGens itemRow itemDesc minThreshold rest

/-- Outer loop of `matchDescriptions` over the left-hand rows. -/
def syncScanItems (minThreshold : ℚ) :
    List RowRecord → List RowRecord → Except Unit (List MatchResult)
  | [], _ => .ok []
  | itemRow :: rest, genData => do
    let itemDesc := descOf itemRow "Description"
    if itemDesc.truthy then
      let here ← syncScanGens itemRow itemDesc minThreshold genData
      let tail ← syncScanItems minThreshold rest genData
      return here ++ tail
    else
      syncScanItems minThreshold rest genData

/-- The synchronous entry point `matchDescriptions` of `matcher.ts`. -/
def matchDescriptions (itemMasterData genConsumableData : List RowRecord)
    (minThreshold : ℚ) (maxResults : ℕ) : Except Unit (List MatchResult) := do
  let collected ← syncScanItems minThreshold itemMasterData genConsumableData
  return rankResults collected maxResults

/-- Helper for `splitWhite`: accumulate the current (reversed) run of
non-whitespace characters. -/
def splitWhiteAux (cur : List Char) : List Char → List (List Char)
  | [] => if cur = [] then [] else [cur.reverse]
  | c :: rest =>
    if isSpaceChar c then
      if cur = [] then splitWhiteAux [] rest else cur.reverse :: splitWhiteAux [] rest
    else splitWhiteAux (c :: cur) rest

/-- The maximal non-whitespace runs of a character list.  The non-empty
results of the JS `split(/\s+/)` are exactly these runs (the split's
possible leading empty-string artifact has length 0 and is discarded by
the length-3 token filter anyway). -/
def splitWhite (l : List Char) : List (List Char) := splitWhiteAux [] l

/-- Token set of an already-normalized string: whitespace-separated words
of length at least 3, with set semantics. -/
def tokenizeNormalized (s : String) : Finset String :=
  ((splitWhite s.data).map (fun w => (⟨w⟩ : String))).filter (fun t => 3 ≤ t.length) |>.toFinset

/-- `extractTokens` of `matcher.ts`: normalize (which can raise on truthy
non-strings), split on whitespace, keep tokens of length ≥ 3 as a set. -/
def extractTokens (text : JSVal) : Except Unit (Finset String) := do
  let normalized ← normalizeString text
  return tokenizeNormalized normalized

/-- `calculateTokenOverlap` of `matcher.ts`: Jaccard-style overlap ratio
of the two token sets, 0 when either set is empty. -/
def calculateTokenOverlap (tokens1 tokens2 : Finset String) : ℚ :=
  if tokens1.card = 0 ∨ tokens2.card = 0 then 0
  else
    let overlap := (tokens1 ∩ tokens2).card
    let union := tokens1.card + tokens2.card - overlap
    if 0 < union then (overlap : ℚ) / (union : ℕ) else 0

/-- A pre-processed row of `matchDescriptionsAsync`: the original row,
its raw description value, the normalized description, the token set
and the original row index. -/
structure NormalizedEntry where
  row : RowRecord
  desc : JSVal
  normalizedDesc : String
  tokens : Finset String
  index : ℕ
deriving DecidableEq

/-- Pre-processing of one row in `matchDescriptionsAsync`. -/
def mkEntry (field : String) (idx : ℕ) (row : RowRecord) : Except Unit NormalizedEntry := do
  let desc := descOf row field
  let normalized ← normalizeString desc
  let tokens ← extractTokens desc
  return ⟨row, desc, normalized, tokens, idx⟩

/-- The `.map((row, idx) => ...)` pass of pre-processing, carrying the
running row index. -/
def mapEntries (field : String) : ℕ → List RowRecord → Except Unit (List NormalizedEntry)
  | _, [] => .ok []
  | idx, row :: rest => do
    let e ← mkEntry field idx row
    let tail ← mapEntries field (idx + 1) rest
    return e :: tail

/-- The pre-processing pass of `matchDescriptionsAsync`: map every row to
a `NormalizedEntry`, then drop entries with an empty normalized
description or an empty token set. -/
def preprocessRows (rows : List RowRecord) (field : String) :
    Except Unit (List NormalizedEntry) := do
  let entries ← mapEntries field 0 rows
  return entries.filter (fun e => 0 < e.normalizedDesc.length ∧ 0 < e.tokens.card)

/-- The candidate filter of `matchDescriptionsAsync`: the length test
(reject when the shorter normalized description is less than 0.3 of the
longer) followed by the token-overlap test (keep only when the overlap
ratio exceeds 0.15).  On the entries this is ever applied to, both
normalized lengths are positive. -/
def candidateFilter (itemData genData : NormalizedEntry) : Bool :=
  let shorter := min itemData.normalizedDesc.length genData.normalizedDesc.length
  let longer := max itemData.normalizedDesc.length genData.normalizedDesc.length
  if ((shorter : ℚ) / (longer : ℕ)) < 3 / 10 then false
  else calculateTokenOverlap itemData.tokens genData.tokens > 3 / 20

/-- The inner candidate loop of `matchDescriptionsAsync` for one left
entry: score each surviving candidate, collect pairs whose (unrounded)
percentage reaches the threshold, and break out of the loop after
recording a match whose percentage is at least 98. -/
def scanCandidates (itemData : NormalizedEntry) (minThreshold : ℚ)
    (acc : List MatchResult) : List NormalizedEntry → List MatchResult
  | [] => acc
  | genData :: rest =>
    let matchPercentage := compareTwoStrings itemData.normalizedDesc genData.normalizedDesc * 100
    if minThreshold ≤ matchPercentage then
      let acc' := acc ++ [⟨itemData.row, genData.row,
        (jsRound (matchPercentage * 100) : ℚ) / 100, itemData.desc, genData.desc⟩]
      if 98 ≤ matchPercentage then acc'
      else scanCandidates itemData minThreshold acc' rest
    else scanCandidates itemData minThreshold acc rest

/-- Processing of one left entry: filter the right entries through the
candidate filter, then scan the survivors. -/
def processItem (genData : List NormalizedEntry) (minThreshold : ℚ)
    (acc : List MatchResult) (itemData : NormalizedEntry) : List MatchResult :=
  scanCandidates itemData minThreshold acc (genData.filter (candidateFilter itemData))

/-- Processing of the left entries with indices in `[start, stop)`. -/
def processRange (itemData genData : List NormalizedEntry) (minThreshold : ℚ)
    (start stop : ℕ) (acc : List MatchResult) : List MatchResult :=
  ((itemData.drop start).take (stop - start)).foldl (processItem genData minThreshold) acc

/-- A JavaScript number as handed to the progress callback: either an
actual (rational) number or `NaN`. -/
inductive JsNum where
  | num : ℚ → JsNum
  | nan : JsNum
deriving DecidableEq, Repr

/-- The progress value `Math.round((currentIndex / total) * 100)`:
`NaN` when `total = 0` (the JS division 0/0). -/
def progressOf (currentIndex total : ℕ) : JsNum :=
  if total = 0 then .nan
  else .num ((jsRound ((currentIndex : ℚ) / (total : ℕ) * 100) : ℤ) : ℚ)

/-- The chunk boundaries the `processChunk` loop steps through:
starting from `cur`, each chunk ends at `min (cur + 200) len`, and the
loop continues while the end is still short of `len`.  The first chunk
always runs, even when `len = 0`.  The fuel argument is an upper bound
on the number of remaining chunks; `len + 1` always suffices. -/
def chunkBoundsFrom (len : ℕ) : ℕ → ℕ → List (ℕ × ℕ)
  | 0, _ => []
  | fuel + 1, cur =>
    let stop := min (cur + 200) len
    if stop < len then (cur, stop) :: chunkBoundsFrom len fuel stop else [(cur, stop)]

/-- All chunk boundaries of one invocation. -/
def chunkBounds (len : ℕ) : List (ℕ × ℕ) := chunkBoundsFrom len (len + 1) 0

/-- The `processChunk` loop of `matchDescriptionsAsync`, driven by the
precomputed chunk boundaries.  Returns the list of progress values
handed to `onProgress` (in order), the resolved match list, and whether
the global early exit fired. -/
def processChunk (itemData genData : List NormalizedEntry) (minThreshold : ℚ)
    (maxResults : ℕ) (acc : List MatchResult) :
    List (ℕ × ℕ) → List JsNum × List MatchResult × Bool
  | [] => ([], rankResults acc maxResults, false)
  | (start, stop) :: rest =>
    let acc' := processRange itemData genData minThreshold start stop acc
    let progress := progressOf stop itemData.length
    if maxResults * 3 ≤ acc'.length ∧ 70 ≤ minThreshold then
      ([progress], rankResults acc' maxResults, true)
    else if stop < itemData.length then
      let next := processChunk itemData genData minThreshold maxResults acc' rest
      (progress :: next.1, next.2)
    else
      ([progress], rankResults acc' maxResults, false)

/-- The asynchronous entry point `matchDescriptionsAsync` of
`matcher.ts`.  The model returns the progress-callback trace, the match
list the promise resolves with, and the early-exit flag. -/
def matchDescriptionsAsync (itemMasterData genConsumableData : List RowRecord)
    (minThreshold : ℚ) (maxResults : ℕ) :
    Except Unit (List JsNum × List MatchResult × Bool) := do
  let normalizedItemData ← preprocessRows itemMasterData "Description"
  let normalizedGenData ← preprocessRows genConsumableData "LONG DESCRIPTION"
  return processChunk normalizedItemData normalizedGenData minThreshold maxResults []
    (chunkBounds normalizedItemData.length)

/-- No leading whitespace character. -/
def noLeadSpace (l : List Char) : Prop :=
  ∀ c, l.head? = some c → isSpaceChar c = false

/-- No trailing whitespace character. -/
def noTailSpace (l : List Char) : Prop :=
  ∀ c, l.getLast? = some c → isSpaceChar c = false

/-- No two adjacent whitespace characters. -/
def spacedOk (l : List Char) : Prop :=
  List.Chain' (fun a b => isSpaceChar a = false ∨ isSpaceChar b = false) l

/-- The multiset of overlapping character bigrams of a string. -/
def bigramMultiset (s : String) : Multiset (Char × Char) := (bigramList s : Multiset (Char × Char))

/-- The similarity score of §4.3, written from the specification text:
normalize both strings; if either normalized form is empty the score is
0; a normalized string shorter than 2 characters scores 1.0 against an
exactly equal normalized string and 0.0 against any other; otherwise
the score is Dice's coefficient `2×|A∩B| / (|A|+|B|)` over the bigram
multisets, where the multiset intersection is count-bounded
(`Multiset.count_inter`: a bigram occurring `k` and `j` times
contributes `min k j`). -/
def diceSpecScore (s t : String) : ℚ :=
  let a := normalizeStringPure s
  let b := normalizeStringPure t
  if a = "" ∨ b = "" then 0
  else if a.length < 2 ∨ b.length < 2 then (if a = b then 1 else 0)
  else 2 * ((bigramMultiset a ∩ bigramMultiset b).card : ℚ) /
    (((bigramMultiset a).card + (bigramMultiset b).card : ℕ) : ℚ)

/-- The shape of every match the candidate scan can add, as a predicate
over the two pre-processed entry lists. -/
def pushedMatch (itemData genData : List NormalizedEntry) (T : ℚ) (r : MatchResult) : Prop :=
  ∃ item ∈ itemData, ∃ g ∈ genData,
    r = ⟨item.row, g.row,
      (jsRound (compareTwoStrings item.normalizedDesc g.normalizedDesc * 100 * 100) : ℚ) / 100,
      item.desc, g.desc⟩ ∧
    T ≤ compareTwoStrings item.normalizedDesc g.normalizedDesc * 100

/-- A description value that cannot make `normalizeString` raise: a
string, or any falsy value. -/
def safeDescVal : JSVal → Bool
  | .vstr _ => true
  | v => !v.truthy

/-- A row whose designated description field cannot make the engine
raise. -/
def rowSafe (r : RowRecord) (field : String) : Bool := safeDescVal (getField r field)

/-- Ordering on progress values: only actual numbers compare. -/
def jsNumLe : JsNum → JsNum → Prop
  | .num a, .num b => a ≤ b
  | _, _ => False

/-- Well-formedness of a chunk-boundary list starting at `cur` for a
left-entry list of length `len`: each chunk ends at
`min (start + 200) len` and the list continues exactly while the end
has not reached `len`. -/
def goodBounds (len : ℕ) : ℕ → List (ℕ × ℕ) → Prop
  | _, [] => False
  | cur, (s, e) :: rest =>
    s = cur ∧ e = min (cur + 200) len ∧
      ((e < len ∧ goodBounds len e rest) ∨ (¬ e < len ∧ rest = []))

/-- A left row whose description is "abc defghi". -/
def lRow : RowRecord := [("Description", .vstr "abc defghi")]

/-- A right row whose description is "abc jklmno": shares the token
"abc" with `lRow` and three bigrams, giving similarity exactly 1/3. -/
def rRow : RowRecord := [("LONG DESCRIPTION", .vstr "abc jklmno")]

/-- A right row whose description equals `lRow`'s, giving similarity 1. -/
def rDupRow : RowRecord := [("LONG DESCRIPTION", .vstr "abc defghi")]

/-- The pre-processed entry of `lRow`. -/
def eL : NormalizedEntry := ⟨lRow, .vstr "abc defghi", "abc defghi", {"abc", "defghi"}, 0⟩

/-- The pre-processed entry of `rRow`. -/
def eR : NormalizedEntry := ⟨rRow, .vstr "abc jklmno", "abc jklmno", {"abc", "jklmno"}, 0⟩

/-- The pre-processed entry of `rDupRow`. -/
def eRDup : NormalizedEntry := ⟨rDupRow, .vstr "abc defghi", "abc defghi", {"abc", "defghi"}, 0⟩

/-- The match result recorded for `lRow` against `rRow` (33.33%). -/
def m33 : MatchResult := ⟨lRow, rRow, 3333 / 100, .vstr "abc defghi", .vstr "abc jklmno"⟩

/-- The match result recorded for `lRow` against `rDupRow` (100%). -/
def m100 : MatchResult := ⟨lRow, rDupRow, 100, .vstr "abc defghi", .vstr "abc defghi"⟩

example : normalizeStringPure "  Surgical   Gloves, Size-M!! " = "surgical gloves sizem" := by decide
example : normalizeStringPure "a !" = "a " := by decide
example : normalizeStringPure "a " = "a" := by decide

theorem toLower_toLower (c : Char) : c.toLower.toLower = c.toLower := by
  by_cases h : 65 ≤ c.toNat ∧ c.toNat ≤ 90
  · have e : c.toLower = Char.ofNat (c.toNat + 32) := by
      unfold Char.toLower
      exact if_pos h
    rw [e]
    obtain ⟨h1, h2⟩ := h
    generalize c.toNat = n at h1 h2
    interval_cases n <;> decide
  · have e : c.toLower = c := by
      unfold Char.toLower
      exact if_neg h
    rw [e, e]

theorem mem_collapseChars {c : Char} :
    ∀ {l : List Char}, c ∈ collapseChars l → c ∈ l ∨ c = ' '
  | [], h => by simp [collapseChars] at h
  | a :: rest, h => by
    rw [collapseChars] at h
    by_cases ha : isSpaceChar a
    · rw [if_pos ha] at h
      by_cases hd : headIsSpace rest
      · rw [if_pos hd] at h
        rcases mem_collapseChars h with h1 | h1
        · exact Or.inl (List.mem_cons_of_mem _ h1)
        · exact Or.inr h1
      · rw [if_neg hd] at h
        rcases List.mem_cons.1 h with h1 | h1
        · exact Or.inr h1
        · rcases mem_collapseChars h1 with h2 | h2
          · exact Or.inl (List.mem_cons_of_mem _ h2)
          · exact Or.inr h2
    · rw [if_neg ha] at h
      rcases List.mem_cons.1 h with h1 | h1
      · exact Or.inl (h1 ▸ List.mem_cons_self a rest)
      · rcases mem_collapseChars h1 with h2 | h2
        · exact Or.inl (List.mem_cons_of_mem _ h2)
        · exact Or.inr h2

theorem mem_trimChars {c : Char} {l : List Char} (h : c ∈ trimChars l) : c ∈ l := by
  unfold trimChars at h
  rw [List.mem_reverse] at h
  have h1 := (List.dropWhile_sublist _).mem h
  rw [List.mem_reverse] at h1
  exact (List.dropWhile_sublist _).mem h1

theorem noLeadSpace_dropWhile (l : List Char) : noLeadSpace (l.dropWhile isSpaceChar) := by
  induction l with
  | nil => intro c hc; simp at hc
  | cons a t ih =>
    by_cases ha : isSpaceChar a
    · rw [List.dropWhile_cons_of_pos ha]; exact ih
    · rw [List.dropWhile_cons_of_neg ha]
      intro c hc
      rw [List.head?_cons, Option.some.injEq] at hc
      subst hc
      simpa using ha

theorem exists_append_dropWhile (p : Char → Bool) (l : List Char) :
    ∃ t, t ++ l.dropWhile p = l := by
  induction l with
  | nil => exact ⟨[], rfl⟩
  | cons a t ih =>
    by_cases ha : p a
    · obtain ⟨u, hu⟩ := ih
      exact ⟨a :: u, by rw [List.dropWhile_cons_of_pos ha, List.cons_append, hu]⟩
    · exact ⟨[], by rw [List.dropWhile_cons_of_neg ha, List.nil_append]⟩

theorem noLead_trimChars (l : List Char) : noLeadSpace (trimChars l) := by
  unfold trimChars
  intro c hc
  set m := l.dropWhile isSpaceChar with hm
  obtain ⟨t, ht⟩ := exists_append_dropWhile isSpaceChar m.reverse
  have hsplit : m = (m.reverse.dropWhile isSpaceChar).reverse ++ t.reverse := by
    rw [← List.reverse_append, ht, List.reverse_reverse]
  apply noLeadSpace_dropWhile l c
  rw [← hm, hsplit, List.head?_append, hc]
  rfl

theorem noTail_trimChars (l : List Char) : noTailSpace (trimChars l) := by
  unfold trimChars
  intro c hc
  rw [List.getLast?_reverse] at hc
  exact noLeadSpace_dropWhile _ c hc

theorem noLead_of_headIsSpace_false {l : List Char} (h : headIsSpace l = false) :
    noLeadSpace l := by
  intro c hc
  cases l with
  | nil => simp at hc
  | cons a t =>
    rw [List.head?_cons, Option.some.injEq] at hc
    subst hc
    exact h

theorem noLead_collapseChars {l : List Char} (h : noLeadSpace l) :
    noLeadSpace (collapseChars l) := by
  cases l with
  | nil => intro c hc; simp [collapseChars] at hc
  | cons a t =>
    have ha : isSpaceChar a = false := h a (List.head?_cons)
    rw [collapseChars, ha]
    simp only [Bool.false_eq_true, if_false]
    intro c hc
    rw [List.head?_cons, Option.some.injEq] at hc
    subst hc
    exact ha

theorem collapseChars_ne_nil : ∀ {l : List Char}, l ≠ [] → collapseChars l ≠ []
  | [], h => absurd rfl h
  | a :: t, _ => by
    rw [collapseChars]
    by_cases ha : isSpaceChar a
    · rw [if_pos ha]
      by_cases hd : headIsSpace t
      · rw [if_pos hd]
        have ht : t ≠ [] := by
          intro he
          rw [he] at hd
          simp [headIsSpace] at hd
        exact collapseChars_ne_nil ht
      · rw [if_neg hd]
        exact List.cons_ne_nil _ _
    · rw [if_neg ha]
      exact List.cons_ne_nil _ _

theorem noTail_collapseChars : ∀ {l : List Char}, noTailSpace l → noTailSpace (collapseChars l)
  | [], _ => by intro c hc; simp [collapseChars] at hc
  | [a], h => by
    have ha : isSpaceChar a = false := h a (by rw [List.getLast?_singleton])
    rw [collapseChars, ha]
    simp only [Bool.false_eq_true, if_false]
    intro c hc
    rw [collapseChars] at hc
    rw [List.getLast?_singleton, Option.some.injEq] at hc
    subst hc
    exact ha
  | a :: d :: t, h => by
    have htail : noTailSpace (d :: t) := by
      intro c hc
      exact h c (by rw [List.getLast?_cons_cons]; exact hc)
    have ih : noTailSpace (collapseChars (d :: t)) := noTail_collapseChars htail
    have hne : collapseChars (d :: t) ≠ [] := collapseChars_ne_nil (List.cons_ne_nil _ _)
    rw [collapseChars]
    by_cases ha : isSpaceChar a
    · rw [if_pos ha]
      by_cases hd : headIsSpace (d :: t)
      · rw [if_pos hd]; exact ih
      · rw [if_neg hd]
        intro c hc
        obtain ⟨x, xs, hx⟩ : ∃ x xs, collapseChars (d :: t) = x :: xs := by
          cases he : collapseChars (d :: t) with
          | nil => exact absurd he hne
          | cons x xs => exact ⟨x, xs, rfl⟩
        rw [hx] at hc ih
        rw [List.getLast?_cons_cons] at hc
        exact ih c hc
    · rw [if_neg ha]
      intro c hc
      obtain ⟨x, xs, hx⟩ : ∃ x xs, collapseChars (d :: t) = x :: xs := by
        cases he : collapseChars (d :: t) with
        | nil => exact absurd he hne
        | cons x xs => exact ⟨x, xs, rfl⟩
      rw [hx] at hc ih
      rw [List.getLast?_cons_cons] at hc
      exact ih c hc

theorem spacedOk_collapseChars (l : List Char) : spacedOk (collapseChars l) := by
  induction l with
  | nil => exact List.chain'_nil
  | cons a t ih =>
    rw [collapseChars]
    by_cases ha : isSpaceChar a
    · rw [if_pos ha]
      by_cases hd : headIsSpace t
      · rw [if_pos hd]; exact ih
      · rw [if_neg hd]
        rw [spacedOk, List.chain'_cons']
        refine ⟨?_, ih⟩
        intro b hb
        right
        exact noLead_collapseChars (noLead_of_headIsSpace_false (by simpa using hd)) b hb
    · rw [if_neg ha]
      rw [spacedOk, List.chain'_cons']
      refine ⟨?_, ih⟩
      intro b _
      left
      simpa using ha

theorem blankSpaces_collapseChars :
    ∀ {l : List Char}, ∀ c ∈ collapseChars l, isSpaceChar c = true → c = ' '
  | [], c, hc, _ => by simp [collapseChars] at hc
  | a :: t, c, hc, hs => by
    rw [collapseChars] at hc
    by_cases ha : isSpaceChar a
    · rw [if_pos ha] at hc
      by_cases hd : headIsSpace t
      · rw [if_pos hd] at hc
        exact blankSpaces_collapseChars c hc hs
      · rw [if_neg hd] at hc
        rcases List.mem_cons.1 hc with h1 | h1
        · exact h1
        · exact blankSpaces_collapseChars c h1 hs
    · rw [if_neg ha] at hc
      rcases List.mem_cons.1 hc with h1 | h1
      · subst h1; rw [hs] at ha; exact absurd rfl ha
      · exact blankSpaces_collapseChars c h1 hs

theorem collapseChars_eq_self :
    ∀ {l : List Char}, spacedOk l → (∀ c ∈ l, isSpaceChar c = true → c = ' ') →
      collapseChars l = l
  | [], _, _ => rfl
  | a :: t, h1, h2 => by
    have htail : spacedOk t := (List.chain'_cons'.1 h1).2
    have htail2 : ∀ c ∈ t, isSpaceChar c = true → c = ' ' :=
      fun c hc => h2 c (List.mem_cons_of_mem _ hc)
    rw [collapseChars]
    by_cases ha : isSpaceChar a
    · rw [if_pos ha]
      have haa : a = ' ' := h2 a (List.mem_cons_self _ _) ha
      have hd : headIsSpace t = false := by
        cases t with
        | nil => rfl
        | cons b u =>
          have := (List.chain'_cons'.1 h1).1 b (by rw [List.head?_cons]; rfl)
          rcases this with hb | hb
          · rw [ha] at hb; exact absurd hb (by simp)
          · exact hb
      rw [hd]
      simp only [Bool.false_eq_true, if_false]
      rw [collapseChars_eq_self htail htail2, haa]
    · rw [if_neg ha]
      rw [collapseChars_eq_self htail htail2]

theorem dropWhile_eq_self_of_noLead {l : List Char} (h : noLeadSpace l) :
    l.dropWhile isSpaceChar = l := by
  cases l with
  | nil => rfl
  | cons a t => exact List.dropWhile_cons_of_neg (by simp [h a List.head?_cons])

theorem trimChars_eq_self {l : List Char} (h1 : noLeadSpace l) (h2 : noTailSpace l) :
    trimChars l = l := by
  unfold trimChars
  rw [dropWhile_eq_self_of_noLead h1]
  have hrev : noLeadSpace l.reverse := by
    intro c hc
    rw [List.head?_reverse] at hc
    exact h2 c hc
  rw [dropWhile_eq_self_of_noLead hrev, List.reverse_reverse]

theorem collapse_trim_stable (x : List Char) :
    collapseChars (trimChars (collapseChars (trimChars x))) =
      collapseChars (trimChars x) := by
  rw [trimChars_eq_self (noLead_collapseChars (noLead_trimChars x))
    (noTail_collapseChars (noTail_trimChars x))]
  exact collapseChars_eq_self (spacedOk_collapseChars _)
    (fun c hc hs => blankSpaces_collapseChars c hc hs)

theorem keepChar_mem_normChars {c : Char} {l : List Char} (hc : c ∈ normChars l) :
    keepChar c = true ∧ c.toLower = c := by
  unfold normChars at hc
  have hk := List.of_mem_filter hc
  have hm := List.mem_of_mem_filter hc
  refine ⟨hk, ?_⟩
  rcases mem_collapseChars hm with h1 | h1
  · rcases mem_trimChars h1 with h2
    rcases List.mem_map.1 h2 with ⟨d, _, hd⟩
    rw [← hd]
    exact toLower_toLower d
  · subst h1; decide

theorem normChars_normChars (l : List Char) :
    normChars (normChars l) = collapseChars (trimChars (normChars l)) := by
  conv_lhs => rw [normChars]
  rw [List.map_congr_left (fun c hc => (keepChar_mem_normChars hc).2), List.map_id']
  rw [List.filter_eq_self.2]
  intro c hc
  rcases mem_collapseChars hc with h1 | h1
  · exact (keepChar_mem_normChars (mem_trimChars h1)).1
  · subst h1; decide

theorem normChars_stable (l : List Char) :
    normChars (normChars (normChars l)) = normChars (normChars l) := by
  rw [normChars_normChars (normChars l), normChars_normChars l, collapse_trim_stable,
    ← normChars_normChars l]

/-- The intersection used in `diceSpecScore` is multiset-bounded exactly
as the specification words it: a bigram occurring `k` times in one
multiset and `j` times in the other occurs `min k j` times in the
intersection. -/
theorem bigram_inter_count (a b : String) (g : Char × Char) :
    (bigramMultiset a ∩ bigramMultiset b).count g =
      min ((bigramMultiset a).count g) ((bigramMultiset b).count g) :=
  Multiset.count_inter g _ _

theorem erase_beq_bridge (a : Char × Char) :
    ∀ bs : List (Char × Char),
      bs.erase a = @List.erase (Char × Char) instBEqOfDecidableEq bs a
  | [] => rfl
  | b :: t => by
    rw [List.erase_cons, @List.erase_cons (Char × Char) instBEqOfDecidableEq]
    by_cases hba : b = a
    · have h1 : (@BEq.beq (Char × Char) instBEqProd b a) = true := by
        subst hba; exact beq_self_eq_true b
      have h2 : (@BEq.beq (Char × Char) instBEqOfDecidableEq b a) = true := by
        subst hba; exact decide_eq_true rfl
      rw [h1, h2]
      rw [if_pos rfl, if_pos rfl]
    · have h1 : (@BEq.beq (Char × Char) instBEqProd b a) = false := beq_false_of_ne hba
      have h2 : (@BEq.beq (Char × Char) instBEqOfDecidableEq b a) = false := decide_eq_false hba
      rw [h1, h2]
      simp only [Bool.false_eq_true, if_false]
      rw [erase_beq_bridge a t]

theorem interCount_eq_card_inter :
    ∀ (as bs : List (Char × Char)),
      interCount as bs = (((as : Multiset (Char × Char))) ∩ ((bs : Multiset (Char × Char)))).card
  | [], bs => by
    rw [interCount]
    rw [show ((([] : List (Char × Char)) : Multiset (Char × Char))) = 0 from rfl,
      Multiset.zero_inter, Multiset.card_zero]
  | a :: as, bs => by
    rw [interCount]
    by_cases h : a ∈ bs
    · rw [if_pos h, interCount_eq_card_inter as (bs.erase a)]
      rw [← Multiset.cons_coe, Multiset.cons_inter_of_pos _ (Multiset.mem_coe.2 h),
        Multiset.card_cons, Multiset.coe_erase, ← erase_beq_bridge]
    · rw [if_neg h, interCount_eq_card_inter as bs]
      rw [← Multiset.cons_coe, Multiset.cons_inter_of_neg _ (fun hc => h (Multiset.mem_coe.1 hc))]

theorem normalizeString_vstr (s : String) :
    normalizeString (.vstr s) = .ok (normalizeStringPure s) := by
  rw [normalizeString]
  by_cases hs : s = ""
  · subst hs
    rfl
  · rw [if_neg (by simp [JSVal.truthy, hs])]

theorem compareTwoStrings_eq_spec (a b : String) :
    compareTwoStrings a b =
      if a.length < 2 ∨ b.length < 2 then (if a = b then 1 else 0)
      else 2 * ((bigramMultiset a ∩ bigramMultiset b).card : ℚ) /
        (((bigramMultiset a).card + (bigramMultiset b).card : ℕ) : ℚ) := by
  rw [compareTwoStrings]
  by_cases h : a.length < 2 ∨ b.length < 2
  · rw [if_pos h, if_pos h]
  · rw [if_neg h, if_neg h, interCount_eq_card_inter]
    rw [show (bigramMultiset a ∩ bigramMultiset b).card =
      (((bigramList a : Multiset (Char × Char))) ∩ ((bigramList b : Multiset (Char × Char)))).card
      from rfl]
    rw [bigramMultiset, bigramMultiset, Multiset.coe_card, Multiset.coe_card]

theorem jsRound_zero : jsRound 0 = 0 := by
  rw [jsRound]
  rw [show ((0 : ℚ) + 1 / 2) = 1 / 2 by norm_num]
  rw [Int.floor_eq_zero_iff.2 (by constructor <;> norm_num)]

theorem interCount_le_left :
    ∀ (as bs : List (Char × Char)), interCount as bs ≤ as.length
  | [], _ => Nat.le_refl 0
  | a :: as, bs => by
    rw [interCount, List.length_cons]
    by_cases h : a ∈ bs
    · rw [if_pos h]
      exact Nat.add_le_add_right (interCount_le_left as (bs.erase a)) 1
    · rw [if_neg h]
      exact Nat.le_succ_of_le (interCount_le_left as bs)

theorem interCount_le_right :
    ∀ (as bs : List (Char × Char)), interCount as bs ≤ bs.length
  | [], _ => Nat.zero_le _
  | a :: as, bs => by
    rw [interCount]
    by_cases h : a ∈ bs
    · rw [if_pos h]
      have h1 := interCount_le_right as (bs.erase a)
      have h2 : (List.erase bs a).length = bs.length - 1 := List.length_erase_of_mem h
      have h3 : 1 ≤ bs.length := List.length_pos.2 (List.ne_nil_of_mem h)
      omega
    · rw [if_neg h]
      exact interCount_le_right as bs

theorem length_bigramList (s : String) : (bigramList s).length = s.length - 1 := by
  rw [bigramList, List.length_zip, List.length_tail]
  exact Nat.min_eq_right (Nat.sub_le _ _)

theorem compareTwoStrings_nonneg (a b : String) : 0 ≤ compareTwoStrings a b := by
  rw [compareTwoStrings]
  by_cases h : a.length < 2 ∨ b.length < 2
  · rw [if_pos h]
    by_cases hab : a = b
    · rw [if_pos hab]; norm_num
    · rw [if_neg hab]
  · rw [if_neg h]
    apply div_nonneg
    · positivity
    · positivity

theorem compareTwoStrings_le_one (a b : String) : compareTwoStrings a b ≤ 1 := by
  rw [compareTwoStrings]
  by_cases h : a.length < 2 ∨ b.length < 2
  · rw [if_pos h]
    by_cases hab : a = b
    · rw [if_pos hab]
    · rw [if_neg hab]; norm_num
  · rw [if_neg h]
    push_neg at h
    obtain ⟨ha, hb⟩ := h
    have hma : 1 ≤ (bigramList a).length := by rw [length_bigramList]; omega
    have hmb : 1 ≤ (bigramList b).length := by rw [length_bigramList]; omega
    have hia := interCount_le_left (bigramList a) (bigramList b)
    have hib := interCount_le_right (bigramList a) (bigramList b)
    rw [div_le_one (by positivity)]
    have : 2 * interCount (bigramList a) (bigramList b) ≤
        (bigramList a).length + (bigramList b).length := by omega
    calc 2 * (interCount (bigramList a) (bigramList b) : ℚ)
        = ((2 * interCount (bigramList a) (bigramList b) : ℕ) : ℚ) := by push_cast; ring
      _ ≤ (((bigramList a).length + (bigramList b).length : ℕ) : ℚ) := by exact_mod_cast this

theorem calculateSimilarity_vstr (d1 d2 : String) :
    calculateSimilarity (.vstr d1) (.vstr d2) =
      .ok (if normalizeStringPure d1 = "" ∨ normalizeStringPure d2 = "" then 0
        else (jsRound (compareTwoStrings (normalizeStringPure d1)
          (normalizeStringPure d2) * 10000) : ℚ) / 100) := by
  rw [calculateSimilarity, normalizeString_vstr, normalizeString_vstr]
  simp only [Bind.bind, Except.bind, Pure.pure, Except.pure]
  by_cases h : normalizeStringPure d1 = "" ∨ normalizeStringPure d2 = ""
  · rw [if_pos h, if_pos h]
  · rw [if_neg h, if_neg h]

/-- C4: for every pair of strings, the similarity score computed by
`calculateSimilarity` is exactly the specification's Dice score over
the bigram multisets of the normalized strings (`diceSpecScore`),
expressed as a percentage rounded to two decimal places: 0 when either
string normalizes to empty, the equality test for normalized strings
shorter than 2 characters, and `2×|A∩B| / (|A|+|B|)` with
multiset-bounded intersection counts otherwise. -/
theorem similarity_matches_dice_spec (d1 d2 : String) :
    calculateSimilarity (.vstr d1) (.vstr d2) =
      .ok ((jsRound (diceSpecScore d1 d2 * 10000) : ℚ) / 100) := by
  rw [calculateSimilarity_vstr]
  simp only [diceSpecScore]
  by_cases h : normalizeStringPure d1 = "" ∨ normalizeStringPure d2 = ""
  · rw [if_pos h, if_pos h, zero_mul, jsRound_zero]
    norm_num
  · rw [if_neg h, if_neg h, compareTwoStrings_eq_spec]

/-- C2 (counterexample): normalization is not idempotent.  For the
string "a !", normalization yields "a " (the "!" is removed only after
whitespace collapsing and trimming, leaving a trailing space), and
normalizing again yields "a". -/
theorem normalize_not_idempotent_cex :
    normalizeStringPure (normalizeStringPure "a !") ≠ normalizeStringPure "a !" := by decide

/-- C2 (amended): normalization is not idempotent in general, because
punctuation removal runs after whitespace collapsing and trimming and
can leave new leading, trailing or doubled spaces; one further
application reaches a fixed point: applying `normalizeString` to a
twice-normalized string returns it unchanged. -/
theorem normalize_twice_idempotent (s : String) :
    normalizeStringPure (normalizeStringPure (normalizeStringPure s)) =
      normalizeStringPure (normalizeStringPure s) := by
  show (⟨normChars (normChars (normChars s.data))⟩ : String) = ⟨normChars (normChars s.data)⟩
  exact congrArg (fun l => (⟨l⟩ : String)) (normChars_stable s.data)

theorem mem_insertDesc {x r : MatchResult} :
    ∀ {l : List MatchResult}, x ∈ insertDesc r l ↔ x = r ∨ x ∈ l
  | [] => by rw [insertDesc]; simp
  | y :: ys => by
    rw [insertDesc]
    by_cases h : r.matchPercentage ≤ y.matchPercentage
    · rw [if_pos h]
      rw [List.mem_cons, mem_insertDesc (l := ys), List.mem_cons]
      tauto
    · rw [if_neg h]
      rw [List.mem_cons, List.mem_cons]

theorem pairwise_insertDesc {r : MatchResult} :
    ∀ {l : List MatchResult},
      l.Pairwise (fun a b => b.matchPercentage ≤ a.matchPercentage) →
      (insertDesc r l).Pairwise (fun a b => b.matchPercentage ≤ a.matchPercentage)
  | [], _ => by rw [insertDesc]; exact List.pairwise_singleton _ r
  | y :: ys, h => by
    rw [insertDesc]
    rcases List.pairwise_cons.1 h with ⟨hy, hys⟩
    by_cases hle : r.matchPercentage ≤ y.matchPercentage
    · rw [if_pos hle]
      refine List.pairwise_cons.2 ⟨?_, pairwise_insertDesc hys⟩
      intro z hz
      rcases mem_insertDesc.1 hz with rfl | hz2
      · exact hle
      · exact hy z hz2
    · rw [if_neg hle]
      refine List.pairwise_cons.2 ⟨?_, h⟩
      intro z hz
      rcases List.mem_cons.1 hz with rfl | hz2
      · exact le_of_lt (lt_of_not_le hle)
      · exact le_trans (hy z hz2) (le_of_lt (lt_of_not_le hle))

theorem pairwise_sortDesc :
    ∀ l : List MatchResult,
      (sortDesc l).Pairwise (fun a b => b.matchPercentage ≤ a.matchPercentage)
  | [] => List.Pairwise.nil
  | r :: rest => pairwise_insertDesc (pairwise_sortDesc rest)

theorem mem_sortDesc {x : MatchResult} :
    ∀ {l : List MatchResult}, x ∈ sortDesc l ↔ x ∈ l
  | [] => Iff.rfl
  | y :: ys => by
    rw [show sortDesc (y :: ys) = insertDesc y (sortDesc ys) from rfl]
    rw [mem_insertDesc, mem_sortDesc (l := ys), List.mem_cons]

theorem mem_rankResults {x : MatchResult} {l : List MatchResult} {n : ℕ}
    (h : x ∈ rankResults l n) : x ∈ l :=
  mem_sortDesc.1 ((List.take_sublist _ _).mem h)

theorem pairwise_rankResults (l : List MatchResult) (n : ℕ) :
    (rankResults l n).Pairwise (fun a b => b.matchPercentage ≤ a.matchPercentage) :=
  (pairwise_sortDesc l).sublist (List.take_sublist _ _)

theorem length_rankResults (l : List MatchResult) (n : ℕ) :
    (rankResults l n).length ≤ n := by
  rw [rankResults, List.length_take]
  exact Nat.min_le_left _ _

theorem jsRound_mono {x y : ℚ} (h : x ≤ y) : jsRound x ≤ jsRound y :=
  Int.floor_le_floor (add_le_add_right h _)

theorem jsRound_nonneg {x : ℚ} (h : 0 ≤ x) : 0 ≤ jsRound x := by
  have := jsRound_mono h
  rwa [jsRound_zero] at this

theorem jsRound_10000 : jsRound 10000 = 10000 := by with_unfolding_all decide

theorem jsRound_100 : jsRound 100 = 100 := by with_unfolding_all decide

theorem jsRound_gt {x : ℚ} : x - 1 / 2 < (jsRound x : ℚ) := by
  rw [jsRound]
  have := Int.sub_one_lt_floor (x + 1 / 2)
  linarith

/-- The shape of every score `calculateSimilarity` can return: a value
in `[0,100]` with exactly two decimal places. -/
theorem calculateSimilarity_ok_bounds {v1 v2 : JSVal} {q : ℚ}
    (h : calculateSimilarity v1 v2 = .ok q) :
    0 ≤ q ∧ q ≤ 100 ∧ ∃ k : ℤ, q = (k : ℚ) / 100 := by
  rw [calculateSimilarity] at h
  cases h1 : normalizeString v1 with
  | error e => rw [h1] at h; exact absurd h (by simp [Bind.bind, Except.bind])
  | ok n1 =>
    cases h2 : normalizeString v2 with
    | error e => rw [h1, h2] at h; exact absurd h (by simp [Bind.bind, Except.bind])
    | ok n2 =>
      rw [h1, h2] at h
      simp only [Bind.bind, Except.bind, Pure.pure, Except.pure] at h
      by_cases he : n1 = "" ∨ n2 = ""
      · rw [if_pos he] at h
        cases h
        exact ⟨le_refl 0, by norm_num, 0, by norm_num⟩
      · rw [if_neg he] at h
        cases h
        have hs0 := compareTwoStrings_nonneg n1 n2
        have hs1 := compareTwoStrings_le_one n1 n2
        have hr0 : 0 ≤ jsRound (compareTwoStrings n1 n2 * 10000) :=
          jsRound_nonneg (by linarith)
        have hr1 : jsRound (compareTwoStrings n1 n2 * 10000) ≤ 10000 := by
          rw [← jsRound_10000]
          exact jsRound_mono (by linarith)
        refine ⟨?_, ?_, jsRound (compareTwoStrings n1 n2 * 10000), rfl⟩
        · apply div_nonneg _ (by norm_num)
          exact_mod_cast hr0
        · rw [div_le_iff₀ (by norm_num : (0:ℚ) < 100)]
          calc (jsRound (compareTwoStrings n1 n2 * 10000) : ℚ) ≤ ((10000 : ℤ) : ℚ) := by
                exact_mod_cast hr1
            _ = 100 * 100 := by norm_num

/-- A strictly positive similarity score implies both inputs normalized
to non-empty strings. -/
theorem calculateSimilarity_pos_nonempty {v1 v2 : JSVal} {q : ℚ}
    (h : calculateSimilarity v1 v2 = .ok q) (hq : 0 < q) :
    (∃ s1, normalizeString v1 = .ok s1 ∧ s1 ≠ "") ∧
      (∃ s2, normalizeString v2 = .ok s2 ∧ s2 ≠ "") := by
  rw [calculateSimilarity] at h
  cases h1 : normalizeString v1 with
  | error e => rw [h1] at h; exact absurd h (by simp [Bind.bind, Except.bind])
  | ok n1 =>
    cases h2 : normalizeString v2 with
    | error e => rw [h1, h2] at h; exact absurd h (by simp [Bind.bind, Except.bind])
    | ok n2 =>
      rw [h1, h2] at h
      simp only [Bind.bind, Except.bind, Pure.pure, Except.pure] at h
      by_cases he : n1 = "" ∨ n2 = ""
      · rw [if_pos he] at h
        cases h
        exact absurd hq (by norm_num)
      · push_neg at he
        exact ⟨⟨n1, rfl, he.1⟩, ⟨n2, rfl, he.2⟩⟩

theorem syncScanGens_sound (ir : RowRecord) (idv : JSVal) (T : ℚ) :
    ∀ {gens : List RowRecord} {ms : List MatchResult},
      syncScanGens ir idv T gens = .ok ms →
      ∀ r ∈ ms, r.itemMasterDescription = idv ∧
        calculateSimilarity idv r.genConsumableDescription = .ok r.matchPercentage ∧
        T ≤ r.matchPercentage
  | [], ms, h => by
    rw [syncScanGens] at h
    cases h
    intro r hr
    exact absurd hr (List.not_mem_nil r)
  | genRow :: rest, ms, h => by
    rw [syncScanGens] at h
    by_cases ht : (descOf genRow "LONG DESCRIPTION").truthy
    · rw [if_pos ht] at h
      cases hsim : calculateSimilarity idv (descOf genRow "LONG DESCRIPTION") with
      | error e =>
        rw [hsim] at h
        exact absurd h (by simp [Bind.bind, Except.bind])
      | ok pct =>
        rw [hsim] at h
        cases htail : syncScanGens ir idv T rest with
        | error e =>
          rw [htail] at h
          exact absurd h (by simp [Bind.bind, Except.bind])
        | ok tail =>
          rw [htail] at h
          simp only [Bind.bind, Except.bind, Pure.pure, Except.pure] at h
          by_cases hth : T ≤ pct
          · rw [if_pos hth] at h
            cases h
            intro r hr
            rcases List.mem_cons.1 hr with rfl | hr2
            · exact ⟨rfl, hsim, hth⟩
            · exact syncScanGens_sound ir idv T htail r hr2
          · rw [if_neg hth] at h
            cases h
            exact syncScanGens_sound ir idv T htail
    · rw [if_neg ht] at h
      exact syncScanGens_sound ir idv T h

theorem syncScanItems_sound (T : ℚ) :
    ∀ {items gens : List RowRecord} {ms : List MatchResult},
      syncScanItems T items gens = .ok ms →
      ∀ r ∈ ms,
        calculateSimilarity r.itemMasterDescription r.genConsumableDescription =
          .ok r.matchPercentage ∧
        T ≤ r.matchPercentage
  | [], gens, ms, h => by
    rw [syncScanItems] at h
    cases h
    intro r hr
    exact absurd hr (List.not_mem_nil r)
  | itemRow :: rest, gens, ms, h => by
    rw [syncScanItems] at h
    by_cases ht : (descOf itemRow "Description").truthy
    · rw [if_pos ht] at h
      cases hhere : syncScanGens itemRow (descOf itemRow "Description") T gens with
      | error e =>
        rw [hhere] at h
        exact absurd h (by simp [Bind.bind, Except.bind])
      | ok here =>
        rw [hhere] at h
        cases htail : syncScanItems T rest gens with
        | error e =>
          rw [htail] at h
          exact absurd h (by simp [Bind.bind, Except.bind])
        | ok tail =>
          rw [htail] at h
          simp only [Bind.bind, Except.bind, Pure.pure, Except.pure] at h
          cases h
          intro r hr
          rcases List.mem_append.1 hr with hr1 | hr2
          · obtain ⟨hdesc, hsim, hth⟩ := syncScanGens_sound itemRow _ T hhere r hr1
            rw [hdesc]
            exact ⟨hsim, hth⟩
          · exact syncScanItems_sound T htail r hr2
    · rw [if_neg ht] at h
      exact syncScanItems_sound T h

theorem matchDescriptions_ok_shape {items gens : List RowRecord} {T : ℚ} {m : ℕ}
    {out : List MatchResult} (h : matchDescriptions items gens T m = .ok out) :
    ∃ collected, syncScanItems T items gens = .ok collected ∧
      out = rankResults collected m := by
  rw [matchDescriptions] at h
  cases hc : syncScanItems T items gens with
  | error e => rw [hc] at h; exact absurd h (by simp [Bind.bind, Except.bind])
  | ok collected =>
    rw [hc] at h
    simp only [Bind.bind, Except.bind, Pure.pure, Except.pure] at h
    cases h
    exact ⟨collected, rfl, rfl⟩

theorem scanCandidates_mem (item : NormalizedEntry) (T : ℚ) :
    ∀ {cands : List NormalizedEntry} {acc : List MatchResult},
      ∀ r ∈ scanCandidates item T acc cands,
        r ∈ acc ∨ ∃ g ∈ cands,
          r = ⟨item.row, g.row,
            (jsRound (compareTwoStrings item.normalizedDesc g.normalizedDesc * 100 * 100) : ℚ) / 100,
            item.desc, g.desc⟩ ∧
          T ≤ compareTwoStrings item.normalizedDesc g.normalizedDesc * 100
  | [], acc, r, hr => Or.inl hr
  | g :: rest, acc, r, hr => by
    rw [scanCandidates] at hr
    by_cases hth : T ≤ compareTwoStrings item.normalizedDesc g.normalizedDesc * 100
    · rw [if_pos hth] at hr
      by_cases hbr : (98 : ℚ) ≤ compareTwoStrings item.normalizedDesc g.normalizedDesc * 100
      · rw [if_pos hbr] at hr
        rcases List.mem_append.1 hr with hr1 | hr1
        · exact Or.inl hr1
        · rcases List.mem_singleton.1 hr1 with rfl
          exact Or.inr ⟨g, List.mem_cons_self _ _, rfl, hth⟩
      · rw [if_neg hbr] at hr
        rcases scanCandidates_mem item T r hr with hr1 | ⟨g2, hg2, he, hth2⟩
        · rcases List.mem_append.1 hr1 with hr2 | hr2
          · exact Or.inl hr2
          · rcases List.mem_singleton.1 hr2 with rfl
            exact Or.inr ⟨g, List.mem_cons_self _ _, rfl, hth⟩
        · exact Or.inr ⟨g2, List.mem_cons_of_mem _ hg2, he, hth2⟩
    · rw [if_neg hth] at hr
      rcases scanCandidates_mem item T r hr with hr1 | ⟨g2, hg2, he, hth2⟩
      · exact Or.inl hr1
      · exact Or.inr ⟨g2, List.mem_cons_of_mem _ hg2, he, hth2⟩

theorem processItem_mem {genData : List NormalizedEntry} {T : ℚ} {acc : List MatchResult}
    {item : NormalizedEntry} {r : MatchResult} (hr : r ∈ processItem genData T acc item) :
    r ∈ acc ∨ ∃ g ∈ genData,
      r = ⟨item.row, g.row,
        (jsRound (compareTwoStrings item.normalizedDesc g.normalizedDesc * 100 * 100) : ℚ) / 100,
        item.desc, g.desc⟩ ∧
      T ≤ compareTwoStrings item.normalizedDesc g.normalizedDesc * 100 := by
  rw [processItem] at hr
  rcases scanCandidates_mem item T r hr with h1 | ⟨g, hg, he, hth⟩
  · exact Or.inl h1
  · exact Or.inr ⟨g, List.mem_of_mem_filter hg, he, hth⟩

theorem foldl_processItem_mem {genData : List NormalizedEntry} {T : ℚ} :
    ∀ {chunk : List NormalizedEntry} {acc : List MatchResult} {r : MatchResult},
      r ∈ chunk.foldl (processItem genData T) acc →
      r ∈ acc ∨ pushedMatch chunk genData T r
  | [], acc, r, hr => Or.inl hr
  | item :: rest, acc, r, hr => by
    rw [List.foldl_cons] at hr
    rcases foldl_processItem_mem hr with h1 | ⟨it2, hit2, hrest⟩
    · rcases processItem_mem h1 with h2 | ⟨g, hg, he, hth⟩
      · exact Or.inl h2
      · exact Or.inr ⟨item, List.mem_cons_self _ _, g, hg, he, hth⟩
    · exact Or.inr ⟨it2, List.mem_cons_of_mem _ hit2, hrest⟩

theorem processRange_mem {itemData genData : List NormalizedEntry} {T : ℚ}
    {start stop : ℕ} {acc : List MatchResult} {r : MatchResult}
    (hr : r ∈ processRange itemData genData T start stop acc) :
    r ∈ acc ∨ pushedMatch itemData genData T r := by
  rw [processRange] at hr
  rcases foldl_processItem_mem hr with h1 | ⟨item, hitem, hrest⟩
  · exact Or.inl h1
  · exact Or.inr ⟨item, ((List.take_sublist _ _).trans (List.drop_sublist _ _)).mem hitem,
      hrest⟩

theorem processChunk_mem {itemData genData : List NormalizedEntry} {T : ℚ} {m : ℕ} :
    ∀ {bounds : List (ℕ × ℕ)} {acc : List MatchResult} {r : MatchResult},
      r ∈ (processChunk itemData genData T m acc bounds).2.1 →
      r ∈ acc ∨ pushedMatch itemData genData T r
  | [], acc, r, hr => by
    rw [processChunk] at hr
    exact Or.inl (mem_rankResults hr)
  | (start, stop) :: rest, acc, r, hr => by
    rw [processChunk] at hr
    by_cases hex : m * 3 ≤ (processRange itemData genData T start stop acc).length ∧ 70 ≤ T
    · rw [if_pos hex] at hr
      exact processRange_mem (mem_rankResults hr)
    · rw [if_neg hex] at hr
      by_cases hcont : stop < itemData.length
      · rw [if_pos hcont] at hr
        rcases processChunk_mem hr with h1 | h2
        · exact processRange_mem h1
        · exact Or.inr h2
      · rw [if_neg hcont] at hr
        exact processRange_mem (mem_rankResults hr)

theorem mkEntry_sound {field : String} {idx : ℕ} {row : RowRecord} {e : NormalizedEntry}
    (h : mkEntry field idx row = .ok e) :
    e.row = row ∧ e.desc = descOf row field ∧
      normalizeString e.desc = .ok e.normalizedDesc := by
  rw [mkEntry] at h
  cases h1 : normalizeString (descOf row field) with
  | error err => rw [h1] at h; exact absurd h (by simp [Bind.bind, Except.bind])
  | ok nd =>
    cases h2 : extractTokens (descOf row field) with
    | error err => rw [h1, h2] at h; exact absurd h (by simp [Bind.bind, Except.bind])
    | ok tks =>
      rw [h1, h2] at h
      simp only [Bind.bind, Except.bind, Pure.pure, Except.pure] at h
      cases h
      exact ⟨rfl, rfl, h1⟩

theorem mapEntries_sound {field : String} :
    ∀ {idx : ℕ} {rows : List RowRecord} {es : List NormalizedEntry},
      mapEntries field idx rows = .ok es →
      ∀ e ∈ es, ∃ i row, row ∈ rows ∧ mkEntry field i row = .ok e
  | idx, [], es, h => by
    rw [mapEntries] at h
    cases h
    intro e he
    exact absurd he (List.not_mem_nil e)
  | idx, row :: rest, es, h => by
    rw [mapEntries] at h
    cases h1 : mkEntry field idx row with
    | error err => rw [h1] at h; exact absurd h (by simp [Bind.bind, Except.bind])
    | ok e0 =>
      cases h2 : mapEntries field (idx + 1) rest with
      | error err => rw [h1, h2] at h; exact absurd h (by simp [Bind.bind, Except.bind])
      | ok tail =>
        rw [h1, h2] at h
        simp only [Bind.bind, Except.bind, Pure.pure, Except.pure] at h
        cases h
        intro e he
        rcases List.mem_cons.1 he with rfl | he2
        · exact ⟨idx, row, List.mem_cons_self _ _, h1⟩
        · obtain ⟨i, row2, hrow2, hmk⟩ := mapEntries_sound h2 e he2
          exact ⟨i, row2, List.mem_cons_of_mem _ hrow2, hmk⟩

/-- Every entry surviving pre-processing normalizes its stored raw
description to its stored non-empty normalized form and has a non-empty
token set. -/
theorem preprocessRows_sound {rows : List RowRecord} {field : String}
    {es : List NormalizedEntry} (h : preprocessRows rows field = .ok es) :
    ∀ e ∈ es, normalizeString e.desc = .ok e.normalizedDesc ∧
      0 < e.normalizedDesc.length ∧ 0 < e.tokens.card := by
  rw [preprocessRows] at h
  cases h1 : mapEntries field 0 rows with
  | error err => rw [h1] at h; exact absurd h (by simp [Bind.bind, Except.bind])
  | ok entries =>
    rw [h1] at h
    simp only [Bind.bind, Except.bind, Pure.pure, Except.pure] at h
    cases h
    intro e he
    have hp := List.of_mem_filter he
    have hm := List.mem_of_mem_filter he
    obtain ⟨i, row, _, hmk⟩ := mapEntries_sound h1 e hm
    obtain ⟨_, _, hnorm⟩ := mkEntry_sound hmk
    have hp2 : 0 < e.normalizedDesc.length ∧ 0 < e.tokens.card := by
      simpa using hp
    exact ⟨hnorm, hp2⟩

theorem matchDescriptionsAsync_ok_shape {items gens : List RowRecord} {T : ℚ} {m : ℕ}
    {tr : List JsNum} {res : List MatchResult} {fl : Bool}
    (h : matchDescriptionsAsync items gens T m = .ok (tr, res, fl)) :
    ∃ ni ng, preprocessRows items "Description" = .ok ni ∧
      preprocessRows gens "LONG DESCRIPTION" = .ok ng ∧
      (tr, res, fl) = processChunk ni ng T m [] (chunkBounds ni.length) := by
  rw [matchDescriptionsAsync] at h
  cases h1 : preprocessRows items "Description" with
  | error err => rw [h1] at h; exact absurd h (by simp [Bind.bind, Except.bind])
  | ok ni =>
    cases h2 : preprocessRows gens "LONG DESCRIPTION" with
    | error err => rw [h1, h2] at h; exact absurd h (by simp [Bind.bind, Except.bind])
    | ok ng =>
      rw [h1, h2] at h
      simp only [Bind.bind, Except.bind, Pure.pure, Except.pure] at h
      injection h with h
      exact ⟨ni, ng, rfl, rfl, h.symm⟩

theorem processChunk_res_shape (itemData genData : List NormalizedEntry) (T : ℚ) (m : ℕ) :
    ∀ (bounds : List (ℕ × ℕ)) (acc : List MatchResult),
      ∃ a, (processChunk itemData genData T m acc bounds).2.1 = rankResults a m
  | [], acc => ⟨acc, by rw [processChunk]⟩
  | (start, stop) :: rest, acc => by
    rw [processChunk]
    by_cases hex : m * 3 ≤ (processRange itemData genData T start stop acc).length ∧ 70 ≤ T
    · rw [if_pos hex]
      exact ⟨processRange itemData genData T start stop acc, rfl⟩
    · rw [if_neg hex]
      by_cases hcont : stop < itemData.length
      · rw [if_pos hcont]
        obtain ⟨a, ha⟩ := processChunk_res_shape itemData genData T m rest
          (processRange itemData genData T start stop acc)
        exact ⟨a, ha⟩
      · rw [if_neg hcont]
        exact ⟨processRange itemData genData T start stop acc, rfl⟩

/-- C9: the output of either entry point is sorted by `matchPercentage`,
non-increasing across consecutive elements, and never longer than
`maxResults`. -/
theorem output_sorted_and_capped :
    (∀ (items gens : List RowRecord) (T : ℚ) (m : ℕ) (out : List MatchResult),
      matchDescriptions items gens T m = .ok out →
      List.Chain' (fun a b => b.matchPercentage ≤ a.matchPercentage) out ∧ out.length ≤ m) ∧
    (∀ (items gens : List RowRecord) (T : ℚ) (m : ℕ) (tr : List JsNum)
      (res : List MatchResult) (fl : Bool),
      matchDescriptionsAsync items gens T m = .ok (tr, res, fl) →
      List.Chain' (fun a b => b.matchPercentage ≤ a.matchPercentage) res ∧ res.length ≤ m) := by
  constructor
  · intro items gens T m out h
    obtain ⟨collected, _, rfl⟩ := matchDescriptions_ok_shape h
    exact ⟨(pairwise_rankResults collected m).chain', length_rankResults collected m⟩
  · intro items gens T m tr res fl h
    obtain ⟨ni, ng, _, _, hshape⟩ := matchDescriptionsAsync_ok_shape h
    have hres : res = (processChunk ni ng T m [] (chunkBounds ni.length)).2.1 := by
      rw [← hshape]
    obtain ⟨a, ha⟩ := processChunk_res_shape ni ng T m (chunkBounds ni.length) []
    rw [hres, ha]
    exact ⟨(pairwise_rankResults a m).chain', length_rankResults a m⟩

/-- C5 (amended): every returned `MatchResult` of either entry point has
a `matchPercentage` within `[0,100]` with exactly two decimal places.
`matchDescriptions` guarantees `matchPercentage ≥ minThreshold` (it
compares the rounded value against the threshold), while
`matchDescriptionsAsync` compares the unrounded percentage, so its
recorded rounded value is only guaranteed to exceed
`minThreshold - 1/200`. -/
theorem scores_bounded_and_thresholded :
    (∀ (items gens : List RowRecord) (T : ℚ) (m : ℕ) (out : List MatchResult)
      (r : MatchResult), matchDescriptions items gens T m = .ok out → r ∈ out →
      0 ≤ r.matchPercentage ∧ r.matchPercentage ≤ 100 ∧
        (∃ k : ℤ, r.matchPercentage = (k : ℚ) / 100) ∧ T ≤ r.matchPercentage) ∧
    (∀ (items gens : List RowRecord) (T : ℚ) (m : ℕ) (tr : List JsNum)
      (res : List MatchResult) (fl : Bool) (r : MatchResult),
      matchDescriptionsAsync items gens T m = .ok (tr, res, fl) → r ∈ res →
      0 ≤ r.matchPercentage ∧ r.matchPercentage ≤ 100 ∧
        (∃ k : ℤ, r.matchPercentage = (k : ℚ) / 100) ∧ T - 1 / 200 < r.matchPercentage) := by
  constructor
  · intro items gens T m out r h hr
    obtain ⟨collected, hc, rfl⟩ := matchDescriptions_ok_shape h
    obtain ⟨hsim, hth⟩ := syncScanItems_sound T hc r (mem_rankResults hr)
    obtain ⟨h0, h100, hk⟩ := calculateSimilarity_ok_bounds hsim
    exact ⟨h0, h100, hk, hth⟩
  · intro items gens T m tr res fl r h hr
    obtain ⟨ni, ng, _, _, hshape⟩ := matchDescriptionsAsync_ok_shape h
    have hres : r ∈ (processChunk ni ng T m [] (chunkBounds ni.length)).2.1 := by
      have h2 : res = (processChunk ni ng T m [] (chunkBounds ni.length)).2.1 :=
        congrArg (fun p => p.2.1) hshape
      exact h2 ▸ hr
    rcases processChunk_mem hres with h1 | ⟨item, _, g, _, he, hth⟩
    · exact absurd h1 (List.not_mem_nil r)
    · have hraw0 : 0 ≤ compareTwoStrings item.normalizedDesc g.normalizedDesc :=
        compareTwoStrings_nonneg _ _
      have hraw1 : compareTwoStrings item.normalizedDesc g.normalizedDesc ≤ 1 :=
        compareTwoStrings_le_one _ _
      have hpct : r.matchPercentage =
          (jsRound (compareTwoStrings item.normalizedDesc g.normalizedDesc * 100 * 100) : ℚ)
            / 100 := by
        rw [he]
      have hr0 : (0 : ℤ) ≤ jsRound (compareTwoStrings item.normalizedDesc g.normalizedDesc
          * 100 * 100) := jsRound_nonneg (by nlinarith)
      have hr1 : jsRound (compareTwoStrings item.normalizedDesc g.normalizedDesc * 100 * 100)
          ≤ 10000 := by
        rw [← jsRound_10000]
        exact jsRound_mono (by nlinarith)
      have hgt := jsRound_gt
        (x := compareTwoStrings item.normalizedDesc g.normalizedDesc * 100 * 100)
      refine ⟨?_, ?_, ⟨_, hpct⟩, ?_⟩
      · rw [hpct]
        apply div_nonneg _ (by norm_num)
        exact_mod_cast hr0
      · rw [hpct, div_le_iff₀ (by norm_num : (0:ℚ) < 100)]
        calc (jsRound (compareTwoStrings item.normalizedDesc g.normalizedDesc * 100 * 100) : ℚ)
            ≤ ((10000 : ℤ) : ℚ) := by exact_mod_cast hr1
          _ = 100 * 100 := by norm_num
      · rw [hpct, lt_div_iff₀ (by norm_num : (0:ℚ) < 100)]
        linarith [hgt, hth]

theorem ne_empty_of_length_pos {s : String} (h : 0 < s.length) : s ≠ "" := by
  intro he
  subst he
  exact absurd h (by decide)

/-- C8 (amended): `matchDescriptionsAsync` never lets a row whose
description is absent, falsy, or normalizes to empty contribute a
result; `matchDescriptions` guarantees this only for a strictly
positive threshold (at `minThreshold = 0`, truthy descriptions that
normalize to empty — whitespace-only or punctuation-only — score 0 and
are collected). -/
theorem degenerate_rows_excluded :
    (∀ (items gens : List RowRecord) (T : ℚ) (m : ℕ) (tr : List JsNum)
      (res : List MatchResult) (fl : Bool) (r : MatchResult),
      matchDescriptionsAsync items gens T m = .ok (tr, res, fl) → r ∈ res →
      (∃ s1, normalizeString r.itemMasterDescription = .ok s1 ∧ s1 ≠ "") ∧
      (∃ s2, normalizeString r.genConsumableDescription = .ok s2 ∧ s2 ≠ "")) ∧
    (∀ (items gens : List RowRecord) (T : ℚ) (m : ℕ) (out : List MatchResult)
      (r : MatchResult), matchDescriptions items gens T m = .ok out → r ∈ out → 0 < T →
      (∃ s1, normalizeString r.itemMasterDescription = .ok s1 ∧ s1 ≠ "") ∧
      (∃ s2, normalizeString r.genConsumableDescription = .ok s2 ∧ s2 ≠ "")) := by
  constructor
  · intro items gens T m tr res fl r h hr
    obtain ⟨ni, ng, hni, hng, hshape⟩ := matchDescriptionsAsync_ok_shape h
    have hres : r ∈ (processChunk ni ng T m [] (chunkBounds ni.length)).2.1 := by
      have h2 : res = (processChunk ni ng T m [] (chunkBounds ni.length)).2.1 :=
        congrArg (fun p => p.2.1) hshape
      exact h2 ▸ hr
    rcases processChunk_mem hres with h1 | ⟨item, hitem, g, hg, he, _⟩
    · exact absurd h1 (List.not_mem_nil r)
    · obtain ⟨hnorm1, hlen1, _⟩ := preprocessRows_sound hni item hitem
      obtain ⟨hnorm2, hlen2, _⟩ := preprocessRows_sound hng g hg
      have e1 : r.itemMasterDescription = item.desc := by rw [he]
      have e2 : r.genConsumableDescription = g.desc := by rw [he]
      rw [e1, e2]
      exact ⟨⟨item.normalizedDesc, hnorm1, ne_empty_of_length_pos hlen1⟩,
        ⟨g.normalizedDesc, hnorm2, ne_empty_of_length_pos hlen2⟩⟩
  · intro items gens T m out r h hr hT
    obtain ⟨collected, hc, rfl⟩ := matchDescriptions_ok_shape h
    obtain ⟨hsim, hth⟩ := syncScanItems_sound T hc r (mem_rankResults hr)
    exact calculateSimilarity_pos_nonempty hsim (lt_of_lt_of_le hT hth)

theorem normalizeString_safe {v : JSVal} (h : safeDescVal v = true) :
    ∃ s, normalizeString v = .ok s := by
  cases v with
  | vstr s => exact ⟨normalizeStringPure s, normalizeString_vstr s⟩
  | vnum q =>
    have ht : JSVal.truthy (.vnum q) = false := by
      have hd : safeDescVal (.vnum q) = !(JSVal.truthy (.vnum q)) := rfl
      rw [hd] at h
      cases hb : JSVal.truthy (.vnum q)
      · rfl
      · rw [hb] at h
        exact absurd h (by decide)
    exact ⟨"", by rw [normalizeString.eq_def, if_pos (by rw [ht]; exact Bool.false_ne_true)]⟩
  | vnull => exact ⟨"", rfl⟩

theorem descOf_safe {r : RowRecord} {field : String} (h : rowSafe r field = true) :
    safeDescVal (descOf r field) = true := by
  rw [descOf, jsOr]
  by_cases ht : (getField r field).truthy
  · rw [if_pos ht]
    exact h
  · rw [if_neg ht]
    rfl

theorem calculateSimilarity_safe {v1 v2 : JSVal} (h1 : safeDescVal v1 = true)
    (h2 : safeDescVal v2 = true) : ∃ q, calculateSimilarity v1 v2 = .ok q := by
  obtain ⟨s1, hs1⟩ := normalizeString_safe h1
  obtain ⟨s2, hs2⟩ := normalizeString_safe h2
  rw [calculateSimilarity, hs1, hs2]
  simp only [Bind.bind, Except.bind, Pure.pure, Except.pure]
  by_cases he : s1 = "" ∨ s2 = ""
  · rw [if_pos he]
    exact ⟨0, rfl⟩
  · rw [if_neg he]
    exact ⟨_, rfl⟩

theorem syncScanGens_safe (ir : RowRecord) (idv : JSVal) (T : ℚ)
    (h1 : safeDescVal idv = true) :
    ∀ gens : List RowRecord, (∀ g ∈ gens, rowSafe g "LONG DESCRIPTION" = true) →
      ∃ ms, syncScanGens ir idv T gens = .ok ms
  | [], _ => ⟨[], rfl⟩
  | genRow :: rest, hg => by
    obtain ⟨tail, htail⟩ := syncScanGens_safe ir idv T h1 rest
      (fun g hgm => hg g (List.mem_cons_of_mem _ hgm))
    rw [syncScanGens]
    by_cases ht : (descOf genRow "LONG DESCRIPTION").truthy
    · rw [if_pos ht]
      obtain ⟨pct, hpct⟩ := calculateSimilarity_safe h1
        (descOf_safe (hg genRow (List.mem_cons_self _ _)))
      rw [hpct, htail]
      simp only [Bind.bind, Except.bind, Pure.pure, Except.pure]
      by_cases hth : T ≤ pct
      · rw [if_pos hth]
        exact ⟨_, rfl⟩
      · rw [if_neg hth]
        exact ⟨_, rfl⟩
    · rw [if_neg ht]
      exact ⟨tail, htail⟩

theorem syncScanItems_safe (T : ℚ) :
    ∀ (items gens : List RowRecord),
      (∀ r ∈ items, rowSafe r "Description" = true) →
      (∀ g ∈ gens, rowSafe g "LONG DESCRIPTION" = true) →
      ∃ ms, syncScanItems T items gens = .ok ms
  | [], _, _, _ => ⟨[], rfl⟩
  | itemRow :: rest, gens, hi, hg => by
    obtain ⟨tail, htail⟩ := syncScanItems_safe T rest gens
      (fun r hrm => hi r (List.mem_cons_of_mem _ hrm)) hg
    rw [syncScanItems]
    by_cases ht : (descOf itemRow "Description").truthy
    · rw [if_pos ht]
      obtain ⟨here, hhere⟩ := syncScanGens_safe itemRow _ T
        (descOf_safe (hi itemRow (List.mem_cons_self _ _))) gens hg
      rw [hhere, htail]
      simp only [Bind.bind, Except.bind, Pure.pure, Except.pure]
      exact ⟨_, rfl⟩
    · rw [if_neg ht]
      exact ⟨tail, htail⟩

theorem extractTokens_safe {v : JSVal} {s : String} (h : normalizeString v = .ok s) :
    extractTokens v = .ok (tokenizeNormalized s) := by
  rw [extractTokens, h]
  rfl

theorem mkEntry_safe {field : String} {row : RowRecord} (idx : ℕ)
    (h : rowSafe row field = true) : ∃ e, mkEntry field idx row = .ok e := by
  obtain ⟨s, hs⟩ := normalizeString_safe (descOf_safe h)
  rw [mkEntry, hs, extractTokens_safe hs]
  simp only [Bind.bind, Except.bind, Pure.pure, Except.pure]
  exact ⟨_, rfl⟩

theorem mapEntries_safe {field : String} :
    ∀ (idx : ℕ) (rows : List RowRecord), (∀ r ∈ rows, rowSafe r field = true) →
      ∃ es, mapEntries field idx rows = .ok es
  | _, [], _ => ⟨[], rfl⟩
  | idx, row :: rest, h => by
    obtain ⟨e, he⟩ := mkEntry_safe idx (h row (List.mem_cons_self _ _))
    obtain ⟨tail, htail⟩ := mapEntries_safe (idx + 1) rest
      (fun r hrm => h r (List.mem_cons_of_mem _ hrm))
    rw [mapEntries, he, htail]
    simp only [Bind.bind, Except.bind, Pure.pure, Except.pure]
    exact ⟨_, rfl⟩

theorem preprocessRows_safe {rows : List RowRecord} {field : String}
    (h : ∀ r ∈ rows, rowSafe r field = true) :
    ∃ es, preprocessRows rows field = .ok es := by
  obtain ⟨es, hes⟩ := mapEntries_safe 0 rows h
  rw [preprocessRows, hes]
  simp only [Bind.bind, Except.bind, Pure.pure, Except.pure]
  exact ⟨_, rfl⟩

/-- C3 (amended): the engine is total on inputs whose designated
description fields hold strings or falsy values (absent, null, empty,
zero); a truthy non-string description raises a `TypeError` in
`normalizeString` (see the counterexample), so totality over all
numeric values does not hold. -/
theorem engine_total_on_safe_rows
    (items gens : List RowRecord) (T : ℚ) (m : ℕ)
    (hi : ∀ r ∈ items, rowSafe r "Description" = true)
    (hg : ∀ g ∈ gens, rowSafe g "LONG DESCRIPTION" = true) :
    (∃ out, matchDescriptions items gens T m = .ok out) ∧
    (∃ p, matchDescriptionsAsync items gens T m = .ok p) := by
  constructor
  · obtain ⟨ms, hms⟩ := syncScanItems_safe T items gens hi hg
    rw [matchDescriptions, hms]
    simp only [Bind.bind, Except.bind, Pure.pure, Except.pure]
    exact ⟨_, rfl⟩
  · obtain ⟨ni, hni⟩ := preprocessRows_safe hi
    obtain ⟨ng, hng⟩ := preprocessRows_safe hg
    rw [matchDescriptionsAsync, hni, hng]
    simp only [Bind.bind, Except.bind, Pure.pure, Except.pure]
    exact ⟨_, rfl⟩

/-- C3 (counterexample): a record whose designated description field
holds the truthy numeric value 5 makes both entry points raise a
`TypeError` (the model's `Except.error`): `normalizeString` calls
`.toLowerCase()` on a number. -/
theorem numeric_description_raises_cex :
    matchDescriptions [[("Description", JSVal.vnum 5)]]
        [[("LONG DESCRIPTION", JSVal.vstr "abc")]] 0 1000 = .error () ∧
      matchDescriptionsAsync [[("Description", JSVal.vnum 5)]]
        [[("LONG DESCRIPTION", JSVal.vstr "abc")]] 0 1000 = .error () := by
  constructor
  · with_unfolding_all rfl
  · with_unfolding_all rfl

theorem chunkBoundsFrom_good {len : ℕ} :
    ∀ (fuel cur : ℕ), cur < len → len - cur ≤ fuel →
      goodBounds len cur (chunkBoundsFrom len fuel cur)
  | 0, cur, hc, hf => absurd hc (by omega)
  | fuel + 1, cur, hc, hf => by
    rw [chunkBoundsFrom]
    by_cases hs : min (cur + 200) len < len
    · rw [if_pos hs]
      rw [goodBounds]
      refine ⟨rfl, rfl, Or.inl ⟨hs, ?_⟩⟩
      exact chunkBoundsFrom_good fuel (min (cur + 200) len) hs (by omega)
    · rw [if_neg hs]
      rw [goodBounds]
      exact ⟨rfl, rfl, Or.inr ⟨hs, rfl⟩⟩

theorem chunkBounds_good {len : ℕ} (h : 0 < len) : goodBounds len 0 (chunkBounds len) :=
  chunkBoundsFrom_good (len + 1) 0 h (by omega)

theorem processChunk_trace_head (itemData genData : List NormalizedEntry) (T : ℚ) (m : ℕ)
    (acc : List MatchResult) (s e : ℕ) (rest : List (ℕ × ℕ)) :
    (processChunk itemData genData T m acc ((s, e) :: rest)).1.head? =
      some (progressOf e itemData.length) := by
  rw [processChunk]
  split_ifs <;> rfl

theorem processChunk_trace_ne_nil (itemData genData : List NormalizedEntry) (T : ℚ) (m : ℕ)
    (acc : List MatchResult) (s e : ℕ) (rest : List (ℕ × ℕ)) :
    (processChunk itemData genData T m acc ((s, e) :: rest)).1 ≠ [] := by
  rw [processChunk]
  split_ifs <;> exact List.cons_ne_nil _ _

theorem progressOf_val {len e : ℕ} (hlen : len ≠ 0) (he : e ≤ len) :
    ∃ k : ℕ, progressOf e len = .num (k : ℚ) ∧ k ≤ 100 := by
  rw [progressOf, if_neg hlen]
  have hq0 : (0 : ℚ) ≤ (e : ℚ) / (len : ℕ) * 100 := by positivity
  have hq1 : (e : ℚ) / (len : ℕ) * 100 ≤ 100 := by
    have hlp : (0 : ℚ) < (len : ℕ) := by
      exact_mod_cast Nat.pos_of_ne_zero hlen
    have : (e : ℚ) / (len : ℕ) ≤ 1 := by
      rw [div_le_one hlp]
      exact_mod_cast he
    linarith
  have hr0 : 0 ≤ jsRound ((e : ℚ) / (len : ℕ) * 100) := jsRound_nonneg hq0
  have hr1 : jsRound ((e : ℚ) / (len : ℕ) * 100) ≤ 100 := by
    rw [← jsRound_100]
    exact jsRound_mono hq1
  refine ⟨(jsRound ((e : ℚ) / (len : ℕ) * 100)).toNat, ?_, ?_⟩
  · congr 1
    exact_mod_cast (Int.toNat_of_nonneg hr0).symm
  · omega

theorem progressOf_mono {len e1 e2 : ℕ} (hlen : len ≠ 0) (h : e1 ≤ e2) :
    jsNumLe (progressOf e1 len) (progressOf e2 len) := by
  rw [progressOf, progressOf, if_neg hlen, if_neg hlen]
  rw [jsNumLe]
  have hlp : (0 : ℚ) < (len : ℕ) := by exact_mod_cast Nat.pos_of_ne_zero hlen
  have hee : (e1 : ℚ) ≤ (e2 : ℚ) := by exact_mod_cast h
  have : (e1 : ℚ) / (len : ℕ) * 100 ≤ (e2 : ℚ) / (len : ℕ) * 100 := by gcongr
  exact_mod_cast jsRound_mono this

theorem progressOf_full {len : ℕ} (hlen : len ≠ 0) :
    progressOf len len = .num 100 := by
  rw [progressOf, if_neg hlen]
  have hlp : ((len : ℕ) : ℚ) ≠ 0 := by
    exact_mod_cast hlen
  rw [show ((len : ℕ) : ℚ) / ((len : ℕ) : ℚ) * 100 = 100 by rw [div_self hlp]; norm_num]
  rw [jsRound_100]
  norm_num

theorem processChunk_trace_good (itemData genData : List NormalizedEntry) (T : ℚ) (m : ℕ)
    (hlen : itemData.length ≠ 0) :
    ∀ (bounds : List (ℕ × ℕ)) (cur : ℕ) (acc : List MatchResult),
      goodBounds itemData.length cur bounds →
      (∀ v ∈ (processChunk itemData genData T m acc bounds).1,
        ∃ k : ℕ, v = .num (k : ℚ) ∧ k ≤ 100) ∧
      List.Chain' jsNumLe (processChunk itemData genData T m acc bounds).1 ∧
      ((processChunk itemData genData T m acc bounds).2.2 = false →
        (processChunk itemData genData T m acc bounds).1.getLast? =
          some (.num (100 : ℚ)))
  | [], cur, acc, hgb => absurd hgb (by rw [goodBounds]; exact fun h => h)
  | (s, e) :: rest, cur, acc, hgb => by
    rw [goodBounds] at hgb
    obtain ⟨hs, he, hcont⟩ := hgb
    have heL : e ≤ itemData.length := he ▸ Nat.min_le_right _ _
    simp only [processChunk]
    by_cases hex : m * 3 ≤ (processRange itemData genData T s e acc).length ∧ 70 ≤ T
    · rw [if_pos hex]
      obtain ⟨k, hk, hk100⟩ := progressOf_val hlen heL
      refine ⟨?_, List.chain'_singleton _, ?_⟩
      · intro v hv
        rw [List.mem_singleton.1 hv]
        exact ⟨k, hk, hk100⟩
      · intro hff
        exact absurd hff (by simp)
    · rw [if_neg hex]
      by_cases hlt : e < itemData.length
      · rw [if_pos hlt]
        rcases hcont with ⟨_, hgbrest⟩ | ⟨hnot, _⟩
        · cases rest with
          | nil => exact absurd hgbrest (by rw [goodBounds]; exact fun h => h)
          | cons p rest2 =>
            obtain ⟨s2, e2⟩ := p
            obtain ⟨IH1, IH2, IH3⟩ := processChunk_trace_good itemData genData T m hlen
              ((s2, e2) :: rest2) e (processRange itemData genData T s e acc) hgbrest
            have hrest := hgbrest
            rw [goodBounds] at hrest
            obtain ⟨hs2, he2, _⟩ := hrest
            have hee2 : e ≤ e2 := by omega
            refine ⟨?_, ?_, ?_⟩
            · intro v hv
              rcases List.mem_cons.1 hv with rfl | hv2
              · exact progressOf_val hlen heL
              · exact IH1 v hv2
            · rw [List.chain'_cons']
              refine ⟨?_, IH2⟩
              intro b hb
              rw [processChunk_trace_head] at hb
              have hb2 := Option.mem_some_iff.1 hb
              subst hb2
              exact progressOf_mono hlen hee2
            · intro hfl
              have hlast := IH3 hfl
              have hne := processChunk_trace_ne_nil itemData genData T m
                (processRange itemData genData T s e acc) s2 e2 rest2
              cases htr : (processChunk itemData genData T m
                  (processRange itemData genData T s e acc) ((s2, e2) :: rest2)).1 with
              | nil => exact absurd htr hne
              | cons x xs =>
                rw [htr] at hlast
                have hgoal : (progressOf e itemData.length :: x :: xs).getLast? =
                    some (JsNum.num 100) := by
                  rw [List.getLast?_cons_cons]
                  exact hlast
                exact hgoal
        · exact absurd hlt hnot
      · rw [if_neg hlt]
        have heq : e = itemData.length := by omega
        obtain ⟨k, hk, hk100⟩ := progressOf_val hlen heL
        refine ⟨?_, List.chain'_singleton _, ?_⟩
        · intro v hv
          rw [List.mem_singleton.1 hv]
          exact ⟨k, hk, hk100⟩
        · intro _
          rw [heq, progressOf_full hlen, List.getLast?_singleton]

/-- C6 (amended): when at least one left entry survives pre-processing,
every progress value handed to the sink is an integer in `[0,100]`, the
reported sequence is monotonically non-decreasing, and on the
normal-completion path the final reported value is exactly 100.  (100
can however already be reported before completion — see the
counterexample — and with no surviving left entry the single reported
value is `NaN`.) -/
theorem progress_reports_sound
    (items gens : List RowRecord) (T : ℚ) (m : ℕ) (ni : List NormalizedEntry)
    (tr : List JsNum) (res : List MatchResult) (fl : Bool)
    (hni : preprocessRows items "Description" = .ok ni)
    (hlen : 0 < ni.length)
    (h : matchDescriptionsAsync items gens T m = .ok (tr, res, fl)) :
    (∀ v ∈ tr, ∃ k : ℕ, v = .num (k : ℚ) ∧ k ≤ 100) ∧
    List.Chain' jsNumLe tr ∧
    (fl = false → tr.getLast? = some (.num (100 : ℚ))) := by
  obtain ⟨ni2, ng, hni2, hng, hshape⟩ := matchDescriptionsAsync_ok_shape h
  have hnieq : ni2 = ni := by
    rw [hni] at hni2
    injection hni2 with h2
    exact h2.symm
  subst hnieq
  have htr : tr = (processChunk ni2 ng T m [] (chunkBounds ni2.length)).1 :=
    congrArg (fun p => p.1) hshape
  have hfl : fl = (processChunk ni2 ng T m [] (chunkBounds ni2.length)).2.2 :=
    congrArg (fun p => p.2.2) hshape
  obtain ⟨p1, p2, p3⟩ := processChunk_trace_good ni2 ng T m
    (Nat.pos_iff_ne_zero.1 hlen) (chunkBounds ni2.length) 0 [] (chunkBounds_good hlen)
  rw [htr, hfl]
  exact ⟨p1, p2, p3⟩

theorem rankResults_nil (m : ℕ) : rankResults [] m = [] := by
  rw [rankResults]
  exact List.take_nil

theorem processChunk_no_items (ng : List NormalizedEntry) (T : ℚ) (m : ℕ) :
    (processChunk ([] : List NormalizedEntry) ng T m [] (chunkBounds 0)).1 = [.nan] ∧
    (processChunk ([] : List NormalizedEntry) ng T m [] (chunkBounds 0)).2.1 = [] := by
  have hb : chunkBounds 0 = [(0, 0)] := rfl
  rw [hb]
  simp only [processChunk]
  split_ifs with h1 h2
  · refine ⟨rfl, ?_⟩
    show rankResults (processRange ([] : List NormalizedEntry) ng T 0 0 []) m = []
    exact rankResults_nil m
  · exact absurd h2 (by decide)
  · refine ⟨rfl, ?_⟩
    show rankResults (processRange ([] : List NormalizedEntry) ng T 0 0 []) m = []
    exact rankResults_nil m

/-- C10: when no left entry survives pre-processing (for example on two
empty inputs), `matchDescriptionsAsync` still runs exactly one chunk
step, reports the single progress value `Math.round((0/0)×100) = NaN`,
and resolves with the empty match list. -/
theorem no_survivors_nan_progress
    (items gens : List RowRecord) (T : ℚ) (m : ℕ)
    (tr : List JsNum) (res : List MatchResult) (fl : Bool)
    (hni : preprocessRows items "Description" = .ok [])
    (h : matchDescriptionsAsync items gens T m = .ok (tr, res, fl)) :
    tr = [.nan] ∧ res = [] := by
  obtain ⟨ni2, ng, hni2, hng, hshape⟩ := matchDescriptionsAsync_ok_shape h
  have hnieq : ni2 = [] := by
    rw [hni] at hni2
    injection hni2 with h2
    exact h2.symm
  subst hnieq
  have htr : tr = (processChunk [] ng T m [] (chunkBounds (List.length ([] : List NormalizedEntry)))).1 :=
    congrArg (fun p => p.1) hshape
  have hres : res = (processChunk [] ng T m [] (chunkBounds (List.length ([] : List NormalizedEntry)))).2.1 :=
    congrArg (fun p => p.2.1) hshape
  obtain ⟨p1, p2⟩ := processChunk_no_items ng T m
  exact ⟨htr.trans p1, hres.trans p2⟩

/-- C7: per-row early break.  Once the candidate scan for a left entry
records a match whose (unrounded) percentage is at least 98, the scan
stops: the remaining candidates are never examined, so the result is
identical whatever follows the breaking candidate. -/
theorem per_row_early_break
    (item g : NormalizedEntry) (rest rest' : List NormalizedEntry)
    (T : ℚ) (acc : List MatchResult)
    (hth : T ≤ compareTwoStrings item.normalizedDesc g.normalizedDesc * 100)
    (hbr : 98 ≤ compareTwoStrings item.normalizedDesc g.normalizedDesc * 100) :
    scanCandidates item T acc (g :: rest) = scanCandidates item T acc (g :: rest') := by
  rw [scanCandidates, scanCandidates, if_pos hth, if_pos hth, if_pos hbr, if_pos hbr]

theorem preprocessRows_singleton {row : RowRecord} {field : String} {e : NormalizedEntry}
    (h : preprocessRows [row] field = .ok [e]) :
    mkEntry field 0 row = .ok e ∧ 0 < e.normalizedDesc.length ∧ 0 < e.tokens.card := by
  rw [preprocessRows] at h
  cases hmk : mkEntry field 0 row with
  | error err =>
    rw [mapEntries, hmk] at h
    exact absurd h (by simp [Bind.bind, Except.bind])
  | ok e0 =>
    rw [mapEntries, hmk] at h
    rw [show mapEntries field (0 + 1) [] = .ok [] from rfl] at h
    simp only [Bind.bind, Except.bind, Pure.pure, Except.pure] at h
    by_cases hp : 0 < e0.normalizedDesc.length ∧ 0 < e0.tokens.card
    · rw [List.filter_cons_of_pos (by exact decide_eq_true hp), List.filter_nil] at h
      injection h with h2
      injection h2 with h3 h4
      subst h3
      exact ⟨rfl, hp⟩
    · rw [List.filter_cons_of_neg (by exact fun hc => hp (of_decide_eq_true hc)),
        List.filter_nil] at h
      injection h with h2
      exact absurd h2 (by simp)

theorem entry_desc_truthy {e : NormalizedEntry}
    (hnorm : normalizeString e.desc = .ok e.normalizedDesc)
    (hlen : 0 < e.normalizedDesc.length) : e.desc.truthy = true := by
  by_cases ht : e.desc.truthy
  · exact ht
  · rw [normalizeString.eq_def, if_pos ht] at hnorm
    injection hnorm with h2
    rw [← h2] at hlen
    exact absurd hlen (by decide)

theorem calculateSimilarity_norm {v1 v2 : JSVal} {n1 n2 : String}
    (h1 : normalizeString v1 = .ok n1) (h2 : normalizeString v2 = .ok n2)
    (he1 : n1 ≠ "") (he2 : n2 ≠ "") :
    calculateSimilarity v1 v2 =
      .ok ((jsRound (compareTwoStrings n1 n2 * 10000) : ℚ) / 100) := by
  rw [calculateSimilarity, h1, h2]
  simp only [Bind.bind, Except.bind, Pure.pure, Except.pure]
  rw [if_neg (by rintro (hc | hc) <;> [exact he1 hc; exact he2 hc])]

theorem scanCandidates_nil (item : NormalizedEntry) (T : ℚ) (acc : List MatchResult) :
    scanCandidates item T acc [] = acc := rfl

theorem scanCandidates_single (item g : NormalizedEntry) (T : ℚ) :
    scanCandidates item T [] [g] =
      if T ≤ compareTwoStrings item.normalizedDesc g.normalizedDesc * 100 then
        [⟨item.row, g.row,
          (jsRound (compareTwoStrings item.normalizedDesc g.normalizedDesc * 100 * 100) : ℚ)
            / 100, item.desc, g.desc⟩]
      else [] := by
  simp only [scanCandidates]
  by_cases hT : T ≤ compareTwoStrings item.normalizedDesc g.normalizedDesc * 100
  · rw [if_pos hT, if_pos hT, ite_self]
    rfl
  · rw [if_neg hT, if_neg hT]

theorem rankResults_singleton (r : MatchResult) {m : ℕ} (hm : 1 ≤ m) :
    rankResults [r] m = [r] := by
  rw [rankResults, show sortDesc [r] = [r] from rfl]
  exact List.take_of_length_le (by simpa using hm)

theorem processChunk_single (eI eG : NormalizedEntry) (T : ℚ) (m : ℕ) (hm : 1 ≤ m)
    (hf : candidateFilter eI eG = true) :
    processChunk [eI] [eG] T m [] (chunkBounds ([eI] : List NormalizedEntry).length) =
      ([.num 100],
        (if T ≤ compareTwoStrings eI.normalizedDesc eG.normalizedDesc * 100 then
          [⟨eI.row, eG.row,
            (jsRound (compareTwoStrings eI.normalizedDesc eG.normalizedDesc * 100 * 100) : ℚ)
              / 100, eI.desc, eG.desc⟩]
        else []), false) := by
  have hcb : chunkBounds ([eI] : List NormalizedEntry).length = [(0, 1)] := rfl
  rw [hcb]
  simp only [processChunk]
  have hpr : processRange [eI] [eG] T 0 1 [] = scanCandidates eI T [] [eG] := by
    rw [processRange]
    rw [show ((([eI] : List NormalizedEntry).drop 0).take (1 - 0)) = [eI] from rfl]
    rw [List.foldl_cons, List.foldl_nil, processItem]
    rw [List.filter_cons_of_pos hf, List.filter_nil]
  rw [hpr, scanCandidates_single]
  have hprog : progressOf 1 ([eI] : List NormalizedEntry).length = JsNum.num 100 :=
    progressOf_full (by decide)
  by_cases hT : T ≤ compareTwoStrings eI.normalizedDesc eG.normalizedDesc * 100
  · rw [if_pos hT]
    rw [if_neg (by rintro ⟨h1, -⟩; simp only [List.length_singleton] at h1; omega)]
    rw [ite_self, hprog, rankResults_singleton _ hm]
  · rw [if_neg hT]
    rw [if_neg (by rintro ⟨h1, -⟩; simp only [List.length_nil] at h1; omega)]
    rw [ite_self, hprog, rankResults_nil]

/-- C1 (amended): on a single surviving pair that passes the candidate
filter, the two entry points use the same similarity scorer and record
the same rounded `matchPercentage`, but their score-threshold semantics
differ: `matchDescriptionsAsync` collects the pair iff the unrounded
percentage reaches `minThreshold`, while `matchDescriptions` collects it
iff the rounded percentage does.  (In general `matchDescriptionsAsync`
additionally omits filter-passing pairs after a per-row early break or
a global early exit.) -/
theorem single_pair_threshold_semantics
    (iRow gRow : RowRecord) (eI eG : NormalizedEntry) (T : ℚ) (m : ℕ)
    (hI : preprocessRows [iRow] "Description" = .ok [eI])
    (hG : preprocessRows [gRow] "LONG DESCRIPTION" = .ok [eG])
    (hf : candidateFilter eI eG = true)
    (hm : 1 ≤ m) :
    matchDescriptionsAsync [iRow] [gRow] T m =
      .ok ([.num 100],
        (if T ≤ compareTwoStrings eI.normalizedDesc eG.normalizedDesc * 100 then
          [⟨iRow, gRow,
            (jsRound (compareTwoStrings eI.normalizedDesc eG.normalizedDesc * 100 * 100) : ℚ)
              / 100, eI.desc, eG.desc⟩]
        else []), false) ∧
    matchDescriptions [iRow] [gRow] T m =
      .ok (if T ≤
          (jsRound (compareTwoStrings eI.normalizedDesc eG.normalizedDesc * 10000) : ℚ) / 100
        then
          [⟨iRow, gRow,
            (jsRound (compareTwoStrings eI.normalizedDesc eG.normalizedDesc * 10000) : ℚ)
              / 100, eI.desc, eG.desc⟩]
        else []) ∧
    (jsRound (compareTwoStrings eI.normalizedDesc eG.normalizedDesc * 100 * 100) : ℚ) / 100 =
      (jsRound (compareTwoStrings eI.normalizedDesc eG.normalizedDesc * 10000) : ℚ) / 100 := by
  obtain ⟨hmkI, hlenI, htokI⟩ := preprocessRows_singleton hI
  obtain ⟨hmkG, hlenG, htokG⟩ := preprocessRows_singleton hG
  obtain ⟨hrowI, hdI, hnI⟩ := mkEntry_sound hmkI
  obtain ⟨hrowG, hdG, hnG⟩ := mkEntry_sound hmkG
  have hneI : eI.normalizedDesc ≠ "" := ne_empty_of_length_pos hlenI
  have hneG : eG.normalizedDesc ≠ "" := ne_empty_of_length_pos hlenG
  refine ⟨?_, ?_, ?_⟩
  · rw [matchDescriptionsAsync, hI, hG]
    simp only [Bind.bind, Except.bind, Pure.pure, Except.pure]
    rw [processChunk_single eI eG T m hm hf, hrowI, hrowG]
  · have htI : (descOf iRow "Description").truthy = true := by
      rw [← hdI]
      exact entry_desc_truthy hnI hlenI
    have htG : (descOf gRow "LONG DESCRIPTION").truthy = true := by
      rw [← hdG]
      exact entry_desc_truthy hnG hlenG
    have hsim : calculateSimilarity (descOf iRow "Description")
        (descOf gRow "LONG DESCRIPTION") =
        .ok ((jsRound (compareTwoStrings eI.normalizedDesc eG.normalizedDesc * 10000) : ℚ)
          / 100) := by
      rw [← hdI, ← hdG]
      exact calculateSimilarity_norm hnI hnG hneI hneG
    rw [matchDescriptions]
    simp only [syncScanItems, syncScanGens]
    rw [if_pos htI, if_pos htG, hsim]
    simp only [Bind.bind, Except.bind, Pure.pure, Except.pure]
    by_cases hT : T ≤
        (jsRound (compareTwoStrings eI.normalizedDesc eG.normalizedDesc * 10000) : ℚ) / 100
    · rw [if_pos hT, if_pos hT]
      rw [← hdI, ← hdG]
      show Except.ok (rankResults ([(⟨iRow, gRow,
        (jsRound (compareTwoStrings eI.normalizedDesc eG.normalizedDesc * 10000) : ℚ) / 100,
        eI.desc, eG.desc⟩ : MatchResult)] ++ []) m) = _
      rw [List.append_nil, rankResults_singleton _ hm]
    · rw [if_neg hT, if_neg hT]
      show Except.ok (rankResults (([] : List MatchResult) ++ []) m) = _
      rw [List.append_nil, rankResults_nil]
  · rw [show compareTwoStrings eI.normalizedDesc eG.normalizedDesc * 100 * 100 =
      compareTwoStrings eI.normalizedDesc eG.normalizedDesc * 10000 by ring]

/-- C1 (counterexample): the two entry points do not collect the same
filter-passing pairs.  First conjunct: at `minThreshold 33.333` the
`lRow`/`rRow` pair (unrounded percentage 100/3, rounded 33.33) passes
the candidate filter and is collected by the async entry point but not
by the sync one.  Second conjunct: at `minThreshold 20` with the
duplicate row first, the per-row early break makes the async entry
point drop the above-threshold `lRow`/`rRow` pair that the sync entry
point collects. -/
theorem entry_points_disagree_cex :
    (candidateFilter eL eR = true ∧
      matchDescriptionsAsync [lRow] [rRow] (33333 / 1000) 1000 =
        .ok ([.num 100], [m33], false) ∧
      matchDescriptions [lRow] [rRow] (33333 / 1000) 1000 = .ok []) ∧
    (matchDescriptionsAsync [lRow] [rDupRow, rRow] 20 1000 =
        .ok ([.num 100], [m100], false) ∧
      matchDescriptions [lRow] [rDupRow, rRow] 20 1000 = .ok [m100, m33]) := by
  refine ⟨⟨?_, ?_, ?_⟩, ?_, ?_⟩
  · with_unfolding_all decide
  · with_unfolding_all rfl
  · with_unfolding_all rfl
  · with_unfolding_all rfl
  · with_unfolding_all rfl

/-- C5 (counterexample): at `minThreshold = 33.333` the async entry
point returns a `MatchResult` whose recorded `matchPercentage` (33.33)
is strictly below the caller's threshold: the threshold was compared
against the unrounded percentage 100/3 and the stored value was
rounded down. -/
theorem async_below_threshold_cex :
    matchDescriptionsAsync [lRow] [rRow] (33333 / 1000) 1000 =
      .ok ([.num 100], [m33], false) ∧
    m33.matchPercentage < 33333 / 1000 := by
  refine ⟨?_, ?_⟩
  · with_unfolding_all rfl
  · with_unfolding_all decide

/-- C6 (counterexample): progress values are not always integers in
`[0,100]` and 100 is not reported only at completion.  With no
surviving left entry the single reported value is `NaN`; with 201
surviving left entries the first batch already reports
`round(200/201×100) = 100` although a second batch (and a second
report of 100) still follows. -/
theorem progress_anomalies_cex :
    matchDescriptionsAsync [] [] 0 1000 = .ok ([.nan], [], false) ∧
    matchDescriptionsAsync (List.replicate 201 [("Description", JSVal.vstr "abc")]) [] 0 1000 =
      .ok ([.num 100, .num 100], [], false) := by
  refine ⟨?_, ?_⟩
  · with_unfolding_all rfl
  · with_unfolding_all rfl

/-- C8 (counterexample): in `matchDescriptions` with `minThreshold = 0`,
a row whose description is whitespace-only (truthy, but normalizing to
the empty string) is not excluded: it scores 0 against every truthy
right row and the pair is collected. -/
theorem whitespace_row_collected_cex :
    normalizeStringPure "   " = "" ∧
    matchDescriptions [[("Description", JSVal.vstr "   ")]]
        [[("LONG DESCRIPTION", JSVal.vstr "abc")]] 0 1000 =
      .ok [⟨[("Description", JSVal.vstr "   ")], [("LONG DESCRIPTION", JSVal.vstr "abc")],
        0, .vstr "   ", .vstr "abc"⟩] := by
  refine ⟨?_, ?_⟩
  · decide
  · with_unfolding_all rfl

theorem single_pair_threshold_semantics_witness :
    matchDescriptionsAsync [lRow] [rRow] 20 1000 =
      .ok ([.num 100],
        (if (20 : ℚ) ≤ compareTwoStrings eL.normalizedDesc eR.normalizedDesc * 100 then
          [⟨lRow, rRow,
            (jsRound (compareTwoStrings eL.normalizedDesc eR.normalizedDesc * 100 * 100) : ℚ)
              / 100, eL.desc, eR.desc⟩]
        else []), false) ∧
    matchDescriptions [lRow] [rRow] 20 1000 =
      .ok (if (20 : ℚ) ≤
          (jsRound (compareTwoStrings eL.normalizedDesc eR.normalizedDesc * 10000) : ℚ) / 100
        then
          [⟨lRow, rRow,
            (jsRound (compareTwoStrings eL.normalizedDesc eR.normalizedDesc * 10000) : ℚ)
              / 100, eL.desc, eR.desc⟩]
        else []) ∧
    (jsRound (compareTwoStrings eL.normalizedDesc eR.normalizedDesc * 100 * 100) : ℚ) / 100 =
      (jsRound (compareTwoStrings eL.normalizedDesc eR.normalizedDesc * 10000) : ℚ) / 100 :=
  single_pair_threshold_semantics lRow rRow eL eR 20 1000
    (by with_unfolding_all decide) (by with_unfolding_all decide)
    (by with_unfolding_all decide) (by decide)

theorem engine_total_on_safe_rows_witness :
    (∃ out, matchDescriptions [lRow] [rRow] 60 1000 = .ok out) ∧
    (∃ p, matchDescriptionsAsync [lRow] [rRow] 60 1000 = .ok p) :=
  engine_total_on_safe_rows [lRow] [rRow] 60 1000
    (by with_unfolding_all decide) (by with_unfolding_all decide)

theorem scores_bounded_and_thresholded_witness :
    (0 ≤ m33.matchPercentage ∧ m33.matchPercentage ≤ 100 ∧
      (∃ k : ℤ, m33.matchPercentage = (k : ℚ) / 100) ∧ (20 : ℚ) ≤ m33.matchPercentage) ∧
    (0 ≤ m33.matchPercentage ∧ m33.matchPercentage ≤ 100 ∧
      (∃ k : ℤ, m33.matchPercentage = (k : ℚ) / 100) ∧
        (20 : ℚ) - 1 / 200 < m33.matchPercentage) :=
  ⟨scores_bounded_and_thresholded.1 [lRow] [rRow] 20 1000 [m33] m33
      (by with_unfolding_all rfl) (List.mem_singleton.2 rfl),
    scores_bounded_and_thresholded.2 [lRow] [rRow] 20 1000 [.num 100] [m33] false m33
      (by with_unfolding_all rfl) (List.mem_singleton.2 rfl)⟩

theorem progress_reports_sound_witness :
    (∀ v ∈ [JsNum.num 100], ∃ k : ℕ, v = .num (k : ℚ) ∧ k ≤ 100) ∧
    List.Chain' jsNumLe [JsNum.num 100] ∧
    (false = false → [JsNum.num 100].getLast? = some (.num (100 : ℚ))) :=
  progress_reports_sound [lRow] [] 0 1000 [eL] [.num 100] [] false
    (by with_unfolding_all decide) (by decide) (by with_unfolding_all rfl)

theorem per_row_early_break_witness :
    ((50 : ℚ) ≤ compareTwoStrings eL.normalizedDesc eRDup.normalizedDesc * 100 ∧
      (98 : ℚ) ≤ compareTwoStrings eL.normalizedDesc eRDup.normalizedDesc * 100) ∧
    scanCandidates eL 50 [] [eRDup, eR] = scanCandidates eL 50 [] [eRDup] :=
  ⟨⟨by with_unfolding_all decide, by with_unfolding_all decide⟩,
    per_row_early_break eL eRDup [eR] [] 50 []
      (by with_unfolding_all decide) (by with_unfolding_all decide)⟩

theorem degenerate_rows_excluded_witness :
    ((∃ s1, normalizeString m33.itemMasterDescription = .ok s1 ∧ s1 ≠ "") ∧
      (∃ s2, normalizeString m33.genConsumableDescription = .ok s2 ∧ s2 ≠ "")) ∧
    ((∃ s1, normalizeString m33.itemMasterDescription = .ok s1 ∧ s1 ≠ "") ∧
      (∃ s2, normalizeString m33.genConsumableDescription = .ok s2 ∧ s2 ≠ "")) :=
  ⟨degenerate_rows_excluded.1 [lRow] [rRow] 20 1000 [.num 100] [m33] false m33
      (by with_unfolding_all rfl) (List.mem_singleton.2 rfl),
    degenerate_rows_excluded.2 [lRow] [rRow] 20 1000 [m33] m33
      (by with_unfolding_all rfl) (List.mem_singleton.2 rfl) (by norm_num)⟩

theorem output_sorted_and_capped_witness :
    (List.Chain' (fun a b => b.matchPercentage ≤ a.matchPercentage) [m100, m33] ∧
      [m100, m33].length ≤ 1000) ∧
    (List.Chain' (fun a b => b.matchPercentage ≤ a.matchPercentage) [m100] ∧
      [m100].length ≤ 1000) :=
  ⟨output_sorted_and_capped.1 [lRow] [rDupRow, rRow] 20 1000 [m100, m33]
      (by with_unfolding_all rfl),
    output_sorted_and_capped.2 [lRow] [rDupRow, rRow] 20 1000 [.num 100] [m100] false
      (by with_unfolding_all rfl)⟩

theorem no_survivors_nan_progress_witness :
    [JsNum.nan] = [JsNum.nan] ∧ ([] : List MatchResult) = [] :=
  no_survivors_nan_progress [] [] 0 1000 [.nan] [] false
    (by with_unfolding_all rfl) (by with_unfolding_all rfl)
